import Mathlib

/-!
Shallow embedding of the sps2 package manager core, with theorems checking
the natural-language specification against the code.

Conventions: Rust functions become Lean functions over explicit state;
machine integers are `Nat`; fallible code returns `Except`/`Option`;
filesystem and network effects are represented by explicit state records
or oracle parameters recording the facts the code queries.
-/

deriving instance DecidableEq for Except

namespace Sps2

/-! ## String primitives

Models of the `str` operations the code uses, written over `List Char`
so that everything computes by structural recursion. -/

/-- Split a character list at every occurrence of `sep` (the model of
`str::split`): always returns at least one part. -/
def splitOnChar (sep : Char) : List Char → List (List Char)
  | [] => [[]]
  | c :: rest =>
    let r := splitOnChar sep rest
    if c = sep then [] :: r
    else
      match r with
      | [] => [[c]]
      | h :: t => (c :: h) :: t

/-- Split at the first occurrence of `sep`: the part before it, and
`some` remainder when `sep` occurs. -/
def splitAtFirst (sep : Char) : List Char → List Char × Option (List Char)
  | [] => ([], none)
  | c :: rest =>
    if c = sep then ([], some rest)
    else
      let p := splitAtFirst sep rest
      (c :: p.1, p.2)

/-- `str::trim` on a character list (the displayed strings under check
contain no whitespace of any kind). -/
def trimChars (l : List Char) : List Char :=
  ((l.dropWhile Char.isWhitespace).reverse.dropWhile Char.isWhitespace).reverse

/-- `str::strip_prefix`. -/
def stripLead : List Char → List Char → Option (List Char)
  | [], l => some l
  | _ :: _, [] => none
  | p :: ps, c :: cs => if p = c then stripLead ps cs else none

/-- `url.split('/')` as a character-list split. -/
def urlParts (url : String) : List (List Char) :=
  splitOnChar '/' url.data

/-! ## Configuration guard (`crates/config/src/guard.rs`) -/

/-- `DiscrepancyHandling` from `config/guard.rs`. -/
inductive DiscrepancyHandling
  | failFast
  | reportOnly
  | autoHeal
  | autoHealOrFail
deriving DecidableEq, Repr

/-- `UserFilePolicy` from `config/guard.rs`. -/
inductive UserFilePolicy
  | preserve
  | remove
  | backup
deriving DecidableEq, Repr

/-- `VerificationConfig` from `config/guard.rs`, restricted to the fields
`apply_legacy_fields` touches plus the other scalar policy fields.  The
nested `guard`/`performance` sections and path fields are not read or
written by `apply_legacy_fields` and are omitted. -/
structure VerificationConfig where
  enabled : Bool
  level : String
  discrepancy_handling : DiscrepancyHandling
  orphaned_file_action : String
  user_file_policy : UserFilePolicy
  fail_on_discrepancy : Option Bool
  auto_heal : Option Bool
  preserve_user_files : Option Bool
deriving DecidableEq, Repr

/-- `VerificationConfig::apply_legacy_fields` from `config/guard.rs`:
collapse the legacy boolean flags into the enum fields, then clear them. -/
def VerificationConfig.applyLegacyFields (c : VerificationConfig) : VerificationConfig :=
  let c1 :=
    match c.fail_on_discrepancy, c.auto_heal with
    | some true, some true => { c with discrepancy_handling := .autoHealOrFail }
    | some false, some true => { c with discrepancy_handling := .autoHeal }
    | some true, some false => { c with discrepancy_handling := .failFast }
    | some false, some false => { c with discrepancy_handling := .reportOnly }
    | _, _ => c
  let c2 :=
    match c1.preserve_user_files with
    | some p =>
        { c1 with user_file_policy := if p then UserFilePolicy.preserve else UserFilePolicy.remove }
    | none => c1
  { c2 with fail_on_discrepancy := none, auto_heal := none, preserve_user_files := none }

/-- The mapping from the two legacy booleans to `DiscrepancyHandling`
spelled out in `apply_legacy_fields`. -/
def legacyDiscrepancyHandling (fail_on auto : Bool) : DiscrepancyHandling :=
  match fail_on, auto with
  | true, true => .autoHealOrFail
  | false, true => .autoHeal
  | true, false => .failFast
  | false, false => .reportOnly

/-! ## Installer (`crates/install/src/installer.rs`) -/

/-- The `InstallError` variants used by the installer entry points. -/
inductive InstallError
  | noPackagesSpecified
  | localPackageNotFound (path : String)
  | invalidPackageFile (path message : String)
  | stateNotFound (state_id : String)
deriving DecidableEq, Repr

/-- A local `.sp` file argument: the path string together with the two
filesystem facts `validate_install_context` queries about it
(`path.exists()` and `path.extension()`). -/
structure LocalFile where
  path : String
  fsExists : Bool
  extension : Option String
deriving DecidableEq, Repr

/-- `InstallContext`, restricted to the fields the validator reads. -/
structure InstallContext where
  packages : List String
  local_files : List LocalFile
deriving DecidableEq, Repr

/-- `UninstallContext`, restricted to the fields the validator reads. -/
structure UninstallContext where
  packages : List String
deriving DecidableEq, Repr

/-- `UpdateContext`, restricted to the fields the validator reads. -/
structure UpdateContext where
  packages : List String
deriving DecidableEq, Repr

/-- The per-file loop body of `Installer::validate_install_context`:
a missing file is `LocalPackageNotFound`; then
`path.extension().is_none_or(|ext| ext != "sp")` is `InvalidPackageFile`. -/
def validateLocalFiles : List LocalFile → Except InstallError Unit
  | [] => .ok ()
  | f :: rest =>
    if !f.fsExists then
      .error (.localPackageNotFound f.path)
    else if (match f.extension with | none => true | some ext => ext != "sp") then
      .error (.invalidPackageFile f.path "file must have .sp extension")
    else
      validateLocalFiles rest

/-- `Installer::validate_install_context`. -/
def validate_install_context (ctx : InstallContext) : Except InstallError Unit :=
  if ctx.packages.isEmpty && ctx.local_files.isEmpty then
    .error .noPackagesSpecified
  else
    validateLocalFiles ctx.local_files

/-- `Installer::validate_uninstall_context`. -/
def validate_uninstall_context (ctx : UninstallContext) : Except InstallError Unit :=
  if ctx.packages.isEmpty then .error .noPackagesSpecified else .ok ()

/-- `Installer::validate_update_context`: always valid (an empty package
list means update all). -/
def validate_update_context (_ctx : UpdateContext) : Except InstallError Unit :=
  .ok ()

/-- Result of running one installer entry point: the returned value and
whether the underlying operation (`operation.execute`) was reached.  The
operation itself is effectful and abstracted to the flag; the claims under
check concern only rejection before execution. -/
structure OperationOutcome where
  result : Except InstallError Unit
  operationExecuted : Bool
deriving DecidableEq, Repr

/-- `Installer::install` up to the point where `operation.execute` runs:
validation happens first and an error returns before any operation. -/
def installRun (ctx : InstallContext) : OperationOutcome :=
  match validate_install_context ctx with
  | .error e => ⟨.error e, false⟩
  | .ok _ => ⟨.ok (), true⟩

/-- `Installer::uninstall` up to the point where `operation.execute` runs. -/
def uninstallRun (ctx : UninstallContext) : OperationOutcome :=
  match validate_uninstall_context ctx with
  | .error e => ⟨.error e, false⟩
  | .ok _ => ⟨.ok (), true⟩

/-- `Installer::update` up to the point where `operation.execute` runs. -/
def updateRun (ctx : UpdateContext) : OperationOutcome :=
  match validate_update_context ctx with
  | .error e => ⟨.error e, false⟩
  | .ok _ => ⟨.ok (), true⟩

/-- The slice of `StateManager` that `Installer::rollback` consults: the
set of existing state ids and the current state id. -/
structure StateManagerModel where
  states : List String
  current : String
deriving DecidableEq, Repr

/-- Result of `Installer::rollback`: returned value, resulting state
manager, and whether `atomic_installer.rollback` ran. -/
structure RollbackOutcome where
  result : Except InstallError Unit
  state : StateManagerModel
  rollbackPerformed : Bool
deriving DecidableEq, Repr

/-- `Installer::rollback(target_state_id)`: if the state does not exist,
return `StateNotFound` before any rollback work; otherwise perform the
atomic rollback, which per spec 4.7 makes `target` the current state. -/
def rollback (sm : StateManagerModel) (target : String) : RollbackOutcome :=
  if !sm.states.contains target then
    ⟨.error (.stateNotFound target), sm, false⟩
  else
    ⟨.ok (), { sm with current := target }, true⟩

/-! ## Builder fetch (`crates/builder/src/api.rs`, `BuilderApi::fetch`) -/

/-- The `BuildError` variants reachable from `fetch`. -/
inductive BuildErr
  | invalidUrl (url : String)
  | fetchFailed (url : String)
  | hashMismatch (file expected actual : String)
deriving DecidableEq, Repr

/-- Result of one `BuilderApi::fetch` call: the returned value, the
updated `downloads` map, whether the file at `download_path` is on disk
when the call returns, and how many download attempts were made. -/
structure FetchOutcome where
  result : Except BuildErr String
  downloads : List (String × String)
  fileOnDisk : Bool
  downloadAttempts : Nat
deriving DecidableEq, Repr

/-- `BuilderApi::fetch(url, expected_hash)`.  `downloads` is the cache
map (url to path), `workingDir` the working directory, and `actualHash`
the hex blake3 digest of the bytes served at `url` (the value
`Hash::hash_file(&download_path).to_hex()` computes).  The network get
and the archive auto-extraction after a successful verify do not affect
the checked facts and are elided. -/
def fetch (downloads : List (String × String)) (workingDir url expectedHash actualHash : String) :
    FetchOutcome :=
  match downloads.lookup url with
  | some path => ⟨.ok path, downloads, false, 0⟩
  | none =>
    match (urlParts url).getLast? with
    | none => ⟨.error (.invalidUrl url), downloads, false, 0⟩
    | some filenameChars =>
      let filename := String.mk filenameChars
      let downloadPath := workingDir ++ "/" ++ filename
      if actualHash != expectedHash then
        ⟨.error (.hashMismatch filename expectedHash actualHash), downloads, false, 1⟩
      else
        ⟨.ok downloadPath, (url, downloadPath) :: downloads, true, 1⟩

/-! ## Validation error recovery
(`crates/install/src/validation/pipeline/recovery.rs`) -/

/-- `RecoveryStrategy` from `recovery.rs`. -/
inductive RecoveryStrategy
  | failFast
  | continueWithWarnings
  | autoRecover
  | skipProblematic
deriving DecidableEq, Repr

/-- `RecoveryAction` from `recovery.rs`. -/
inductive RecoveryAction
  | fail
  | convertToWarning (w : String)
  | skip
  | retry
  | customFix (f : String)
deriving DecidableEq, Repr

/-- `RecoveryStats` from `recovery.rs`.  `success_rate` is an `f64` in the
source, always assigned the exact quotient `recovered_errors / total_errors`
of two small counters; it is modelled as a rational. -/
structure RecoveryStats where
  total_errors : Nat
  recovered_errors : Nat
  errors_to_warnings : Nat
  skipped_operations : Nat
  retry_attempts : Nat
  success_rate : ℚ
deriving DecidableEq, Repr

/-- `RecoveryStats::default()`. -/
def RecoveryStats.initial : RecoveryStats := ⟨0, 0, 0, 0, 0, 0⟩

/-- `ErrorRecoveryManager` from `recovery.rs`.  The custom-handler map
only chooses which `RecoveryAction` `handle_error` takes and is folded
into the action parameter of the transition below. -/
structure ErrorRecoveryManager where
  strategy : RecoveryStrategy
  max_errors : Nat
  error_count : Nat
  recovery_stats : RecoveryStats
deriving DecidableEq, Repr

/-- `ErrorRecoveryManager::new(strategy)`: `max_errors` defaults to 10. -/
def ErrorRecoveryManager.new (strategy : RecoveryStrategy) : ErrorRecoveryManager :=
  ⟨strategy, 10, 0, RecoveryStats.initial⟩

/-- `ErrorRecoveryManager::with_max_errors`. -/
def ErrorRecoveryManager.withMaxErrors (m : ErrorRecoveryManager) (maxE : Nat) :
    ErrorRecoveryManager :=
  { m with max_errors := maxE }

/-- `ErrorRecoveryManager::apply_recovery_stats`. -/
def applyRecoveryStats (m : ErrorRecoveryManager) (action : RecoveryAction) :
    ErrorRecoveryManager :=
  let s := m.recovery_stats
  let s1 :=
    match action with
    | .fail => s
    | .convertToWarning _ =>
        { s with recovered_errors := s.recovered_errors + 1,
                 errors_to_warnings := s.errors_to_warnings + 1 }
    | .skip =>
        { s with recovered_errors := s.recovered_errors + 1,
                 skipped_operations := s.skipped_operations + 1 }
    | .retry => { s with retry_attempts := s.retry_attempts + 1 }
    | .customFix _ => { s with recovered_errors := s.recovered_errors + 1 }
  let s2 :=
    if 0 < s1.total_errors then
      { s1 with success_rate := (s1.recovered_errors : ℚ) / (s1.total_errors : ℚ) }
    else s1
  { m with recovery_stats := s2 }

/-- `ErrorRecoveryManager::handle_error`.  The source picks the
`RecoveryAction` from the error message via custom handlers and the
strategy's `determine_*` helpers; since every constructor of
`RecoveryAction` can be produced by a custom handler, the chosen action
is a parameter here.  Returns the mutated manager (the source mutates
`self` before the over-limit early return) and the call's result. -/
def handle_error (m : ErrorRecoveryManager) (action : RecoveryAction) :
    ErrorRecoveryManager × Except InstallError RecoveryAction :=
  let m1 := { m with
    error_count := m.error_count + 1,
    recovery_stats :=
      { m.recovery_stats with total_errors := m.recovery_stats.total_errors + 1 } }
  if m1.max_errors < m1.error_count then
    (m1, .error (.invalidPackageFile "package"
      ("Too many errors during validation: " ++ toString m1.error_count)))
  else
    (applyRecoveryStats m1 action, .ok action)

/-- `ErrorRecoveryManager::is_recovery_viable`. -/
def is_recovery_viable (m : ErrorRecoveryManager) : Bool :=
  if m.recovery_stats.total_errors = 0 then
    m.error_count ≤ m.max_errors
  else
    m.error_count ≤ m.max_errors && (1 : ℚ) / 2 ≤ m.recovery_stats.success_rate

/-- `ErrorRecoveryManager::reset`. -/
def ErrorRecoveryManager.reset (m : ErrorRecoveryManager) : ErrorRecoveryManager :=
  { m with error_count := 0, recovery_stats := RecoveryStats.initial }

/-- States an `ErrorRecoveryManager` can be in after construction
(`new`, optionally `with_max_errors`) and any sequence of
`handle_error` calls (with arbitrary actions) or `reset`s. -/
inductive ReachableManager : ErrorRecoveryManager → Prop
  | base (strategy : RecoveryStrategy) (maxE : Nat) :
      ReachableManager ((ErrorRecoveryManager.new strategy).withMaxErrors maxE)
  | newDefault (strategy : RecoveryStrategy) :
      ReachableManager (ErrorRecoveryManager.new strategy)
  | step (m : ErrorRecoveryManager) (action : RecoveryAction) :
      ReachableManager m → ReachableManager (handle_error m action).1
  | reset (m : ErrorRecoveryManager) : ReachableManager m → ReachableManager m.reset

/-! ## Archive extraction (`crates/builder/src/api.rs`) -/

/-- Destination paths (as component lists) produced by the entry loop of
`BuilderApi::extract_compressed_tar`: entries with at most one path
component are skipped, every other entry is unpacked to
`working_dir.join(components[1..])`. -/
def tarDestPaths (workingDir : List String) (entries : List (List String)) :
    List (List String) :=
  entries.filterMap fun comps =>
    if comps.length ≤ 1 then none else some (workingDir ++ comps.tail)

/-- Top-level names of a tar archive (first components of its entries),
deduplicated; used to state the spec's single-top-level-directory form. -/
def tarTopLevelNames (entries : List (List String)) : List String :=
  (entries.filterMap List.head?).dedup

/-- A zip entry as `should_strip_zip_components` and `extract_zip` see
it: `enclosed_name()` as an optional component list (`none` when the
name is unsafe), and whether the entry name ends in `/`. -/
structure ZipEntry where
  enclosedName : Option (List String)
  isDir : Bool
deriving DecidableEq, Repr

/-- The set (deduplicated list) of names `should_strip_zip_components`
inserts into `top_level_dirs`: single-component entries whose name ends
in `/`. -/
def zipTopLevelDirs (entries : List ZipEntry) : List String :=
  (entries.filterMap fun e =>
    match e.enclosedName with
    | some [c] => if e.isDir then some c else none
    | _ => none).dedup

/-- Whether `should_strip_zip_components` sets `has_files_at_root`:
some single-component entry is not a directory. -/
def zipHasRootFiles (entries : List ZipEntry) : Bool :=
  entries.any fun e =>
    match e.enclosedName with
    | some [_] => !e.isDir
    | _ => false

/-- `should_strip_zip_components`: strip iff there is exactly one
directory at top level and no files. -/
def shouldStripZipComponents (entries : List ZipEntry) : Bool :=
  (zipTopLevelDirs entries).length == 1 && !zipHasRootFiles entries

/-- Destination paths produced by the entry loop of
`BuilderApi::extract_zip`, following its strip/keep/continue match on
`strip_components` and the component count. -/
def zipDestPaths (workingDir : List String) (entries : List ZipEntry) :
    List (List String) :=
  let strip : Nat := if shouldStripZipComponents entries then 1 else 0
  entries.filterMap fun e =>
    match e.enclosedName with
    | none => none
    | some comps =>
      if 0 < strip && strip < comps.length then
        some (workingDir ++ comps.drop strip)
      else if strip == 0 then
        some (workingDir ++ comps)
      else none

/-! ## Versions (`crates/types/src/version.rs`)

The crate stores versions as `semver::Version` values from the external
`semver` crate (strict SemVer: `MAJOR.MINOR.PATCH` with optional
`-PRERELEASE` and `+BUILD`).  The semver crate is a fixed dependency whose
grammar, display and ordering are modelled here; everything below
`VersionConstraint` is translated from `version.rs` itself. -/

/-- Numeric value of a decimal digit character. -/
def charVal (c : Char) : Nat := c.toNat - 48

/-- Decimal digit character for `d < 10`. -/
def natDigitChar (d : Nat) : Char := Char.ofNat (48 + d)

/-- Value of a big-endian digit string. -/
def digitsToNat (l : List Char) : Nat :=
  l.foldl (fun n c => 10 * n + charVal c) 0

/-- Decimal rendering of a natural number (the model of `u64`'s
`Display`). -/
def natToChars (n : Nat) : List Char :=
  if n = 0 then ['0'] else (Nat.digits 10 n).reverse.map natDigitChar

/-- Parse one numeric version component the way the semver crate does:
nonempty, all digits, no leading zero. -/
def parseNumeric (l : List Char) : Option Nat :=
  if l.isEmpty then none
  else if !l.all Char.isDigit then none
  else if 1 < l.length && l.head? == some '0' then none
  else some (digitsToNat l)

/-- A character allowed in a semver prerelease/build identifier:
`[0-9A-Za-z-]`. -/
def isIdentChar (c : Char) : Bool := c.isDigit || c.isAlpha || c = '-'

/-- A valid semver prerelease identifier: nonempty, identifier
characters, and no leading zero when purely numeric. -/
def validPreSegment (l : List Char) : Bool :=
  !l.isEmpty && l.all isIdentChar &&
    (if l.all Char.isDigit then l.length == 1 || l.head? != some '0' else true)

/-- A valid semver build identifier: nonempty identifier characters
(leading zeros allowed). -/
def validBuildSegment (l : List Char) : Bool :=
  !l.isEmpty && l.all isIdentChar

/-- A valid (nonempty) prerelease string: dot-separated valid
identifiers. -/
def validPre (l : List Char) : Bool :=
  (splitOnChar '.' l).all validPreSegment

/-- A valid (nonempty) build-metadata string: dot-separated valid
identifiers. -/
def validBuild (l : List Char) : Bool :=
  (splitOnChar '.' l).all validBuildSegment

/-- The model of `semver::Version`: numeric triple plus prerelease and
build-metadata strings (empty list = absent). -/
structure Version where
  major : Nat
  minor : Nat
  patch : Nat
  pre : List Char
  build : List Char
deriving DecidableEq, Repr

/-- The representation invariant `semver::Version` maintains (its
`Prerelease`/`BuildMetadata` fields only ever hold validated strings). -/
def Version.Valid (v : Version) : Prop :=
  (v.pre.isEmpty || validPre v.pre) = true ∧ (v.build.isEmpty || validBuild v.build) = true

instance (v : Version) : Decidable v.Valid := by
  unfold Version.Valid
  infer_instance

/-- `MAJOR.MINOR.PATCH` part of `semver::Version::parse`: exactly three
dot-separated numeric components. -/
def parseVersionCore (l : List Char) : Option (Nat × Nat × Nat) :=
  match splitOnChar '.' l with
  | [a, b, c] => do
    let ma ← parseNumeric a
    let mi ← parseNumeric b
    let pa ← parseNumeric c
    pure (ma, mi, pa)
  | _ => none

/-- `semver::Version::parse`: strip build metadata at the first `+`,
prerelease at the first `-`, parse the numeric core, validate the
optional parts. -/
def parseVersionChars (l : List Char) : Option Version :=
  let pb := splitAtFirst '+' l
  let pp := splitAtFirst '-' pb.1
  match parseVersionCore pp.1 with
  | none => none
  | some (ma, mi, pa) =>
    if (match pp.2 with | none => true | some p => validPre p) &&
       (match pb.2 with | none => true | some b => validBuild b) then
      some ⟨ma, mi, pa, pp.2.getD [], pb.2.getD []⟩
    else none

/-- `semver::Version`'s `Display`:
`MAJOR.MINOR.PATCH[-PRE][+BUILD]`. -/
def versionChars (v : Version) : List Char :=
  natToChars v.major ++ ['.'] ++ natToChars v.minor ++ ['.'] ++ natToChars v.patch
    ++ (if v.pre.isEmpty then [] else '-' :: v.pre)
    ++ (if v.build.isEmpty then [] else '+' :: v.build)

/-- Lexicographic comparison of ASCII character lists (the model of
`str::cmp` on identifier strings). -/
def cmpChars : List Char → List Char → Ordering
  | [], [] => .eq
  | [], _ :: _ => .lt
  | _ :: _, [] => .gt
  | a :: as, b :: bs =>
    if a.toNat < b.toNat then .lt
    else if b.toNat < a.toNat then .gt
    else cmpChars as bs

/-- Compare two prerelease identifiers per SemVer: numeric identifiers
numerically, numeric below alphanumeric, alphanumeric lexically. -/
def cmpPreIdent (a b : List Char) : Ordering :=
  match a.all Char.isDigit, b.all Char.isDigit with
  | true, true => compare (digitsToNat a) (digitsToNat b)
  | true, false => .lt
  | false, true => .gt
  | false, false => cmpChars a b

/-- Compare identifier lists lexicographically; a strict prefix is
smaller. -/
def cmpIdentList (cmpOne : List Char → List Char → Ordering) :
    List (List Char) → List (List Char) → Ordering
  | [], [] => .eq
  | [], _ :: _ => .lt
  | _ :: _, [] => .gt
  | a :: as, b :: bs => (cmpOne a b).then (cmpIdentList cmpOne as bs)

/-- `semver::Prerelease`'s `Ord`: an empty prerelease (a real release)
compares above any prerelease; otherwise dot-split identifiers compare
per SemVer. -/
def cmpPre (a b : List Char) : Ordering :=
  match a.isEmpty, b.isEmpty with
  | true, true => .eq
  | true, false => .gt
  | false, true => .lt
  | false, false => cmpIdentList cmpPreIdent (splitOnChar '.' a) (splitOnChar '.' b)

/-- Compare two build identifiers the way `semver::BuildMetadata`'s
`Ord` does: all-digit identifiers numerically (string order breaking
ties from leading zeros), otherwise numeric below alphanumeric, else
lexically.  No claim under check depends on this tiebreak. -/
def cmpBuildIdent (a b : List Char) : Ordering :=
  match a.all Char.isDigit, b.all Char.isDigit with
  | true, true => (compare (digitsToNat a) (digitsToNat b)).then (cmpChars a b)
  | true, false => .lt
  | false, true => .gt
  | false, false => cmpChars a b

/-- `semver::BuildMetadata`'s `Ord`: empty below nonempty, otherwise
dot-split identifier comparison. -/
def cmpBuild (a b : List Char) : Ordering :=
  match a.isEmpty, b.isEmpty with
  | true, true => .eq
  | true, false => .lt
  | false, true => .gt
  | false, false => cmpIdentList cmpBuildIdent (splitOnChar '.' a) (splitOnChar '.' b)

/-- `semver::Version`'s `Ord`: major, minor, patch, prerelease
precedence, build metadata as final tiebreak. -/
def Version.cmp (a b : Version) : Ordering :=
  (compare a.major b.major).then
    ((compare a.minor b.minor).then
      ((compare a.patch b.patch).then
        ((cmpPre a.pre b.pre).then (cmpBuild a.build b.build))))

/-- `a >= b` on versions. -/
def versionGe (a b : Version) : Bool := Version.cmp a b != .lt

/-- `a <= b` on versions. -/
def versionLe (a b : Version) : Bool := Version.cmp a b != .gt

/-- `a > b` on versions. -/
def versionGt (a b : Version) : Bool := Version.cmp a b == .gt

/-- `a < b` on versions. -/
def versionLt (a b : Version) : Bool := Version.cmp a b == .lt

/-- `VersionError` from `sps2_errors`; the semver parse error text is
opaque to the claims and modelled by a fixed message. -/
inductive VersionError
  | parseError (message : String)
  | invalidConstraint (input : String)
deriving DecidableEq, Repr

/-- `VersionConstraint` from `version.rs`. -/
inductive VersionConstraint
  | exact (v : Version)
  | greaterEqual (v : Version)
  | lessEqual (v : Version)
  | greater (v : Version)
  | less (v : Version)
  | compatible (v : Version)
  | notEqual (v : Version)
deriving DecidableEq, Repr

/-- The version carried by a constraint. -/
def VersionConstraint.version : VersionConstraint → Version
  | .exact v | .greaterEqual v | .lessEqual v | .greater v
  | .less v | .compatible v | .notEqual v => v

/-- `VersionConstraint::matches`. -/
def VersionConstraint.matches (c : VersionConstraint) (version : Version) : Bool :=
  match c with
  | .exact v => version == v
  | .greaterEqual v => versionGe version v
  | .lessEqual v => versionLe version v
  | .greater v => versionGt version v
  | .less v => versionLt version v
  | .notEqual v => version != v
  | .compatible v =>
    versionGe version v && version.major == v.major && version.minor == v.minor

/-- Parse the version after an operator: `Version::parse(s.trim())`
mapped onto `ParseError`. -/
def parseOperand (mk : Version → VersionConstraint) (rest : List Char) :
    Except VersionError VersionConstraint :=
  match parseVersionChars (trimChars rest) with
  | none => .error (.parseError "invalid semver")
  | some v => .ok (mk v)

/-- `VersionConstraint::parse`: trim, then try the operator strings in
source order (`==`, `>=`, `<=`, `!=`, `~=`, `>`, `<`). -/
def constraintParse (l : List Char) : Except VersionError VersionConstraint :=
  let s := trimChars l
  match stripLead ['=', '='] s with
  | some rest => parseOperand .exact rest
  | none =>
  match stripLead ['>', '='] s with
  | some rest => parseOperand .greaterEqual rest
  | none =>
  match stripLead ['<', '='] s with
  | some rest => parseOperand .lessEqual rest
  | none =>
  match stripLead ['!', '='] s with
  | some rest => parseOperand .notEqual rest
  | none =>
  match stripLead ['~', '='] s with
  | some rest => parseOperand .compatible rest
  | none =>
  match stripLead ['>'] s with
  | some rest => parseOperand .greater rest
  | none =>
  match stripLead ['<'] s with
  | some rest => parseOperand .less rest
  | none => .error (.invalidConstraint (String.mk s))

/-- `VersionSpec` from `version.rs`. -/
structure VersionSpec where
  constraints : List VersionConstraint
deriving DecidableEq, Repr

/-- `VersionSpec::matches`: conjunction of the constraint matches. -/
def VersionSpec.matches (p : VersionSpec) (version : Version) : Bool :=
  p.constraints.all (·.matches version)

/-- `VersionSpec::is_any`. -/
def VersionSpec.isAny (p : VersionSpec) : Bool := p.constraints.isEmpty

/-- The `collect::<Result<Vec<_>, _>>` over the comma-split parts:
first error wins. -/
def collectConstraints : List (List Char) → Except VersionError (List VersionConstraint)
  | [] => .ok []
  | part :: rest => do
    let c ← constraintParse (trimChars part)
    let cs ← collectConstraints rest
    pure (c :: cs)

/-- `VersionSpec::from_str` on the underlying characters: trim; empty or
`*` means no constraints; otherwise split on commas and parse each
clause. -/
def versionSpecFromChars (l : List Char) : Except VersionError VersionSpec :=
  let s := trimChars l
  if s.isEmpty || s == ['*'] then .ok ⟨[]⟩
  else do
    let constraints ← collectConstraints (splitOnChar ',' s)
    if constraints.isEmpty then .error (.invalidConstraint (String.mk s))
    else pure ⟨constraints⟩

/-- `VersionSpec::from_str`. -/
def VersionSpec.fromStr (s : String) : Except VersionError VersionSpec :=
  versionSpecFromChars s.data

/-- The operator part of `Display for VersionConstraint`. -/
def constraintOp : VersionConstraint → List Char
  | .exact _ => ['=', '=']
  | .greaterEqual _ => ['>', '=']
  | .lessEqual _ => ['<', '=']
  | .greater _ => ['>']
  | .less _ => ['<']
  | .compatible _ => ['~', '=']
  | .notEqual _ => ['!', '=']

/-- `Display for VersionConstraint`: operator then version. -/
def constraintChars (k : VersionConstraint) : List Char :=
  constraintOp k ++ versionChars k.version

/-- `join(",")` over the rendered constraints. -/
def joinComma : List (List Char) → List Char
  | [] => []
  | [x] => x
  | x :: rest => x ++ ',' :: joinComma rest

/-- `Display for VersionSpec`: `*` for the empty spec, else the
comma-joined constraints. -/
def versionSpecChars (p : VersionSpec) : List Char :=
  if p.constraints.isEmpty then ['*']
  else joinComma (p.constraints.map constraintChars)

/-- `VersionSpec`'s display as a string. -/
def VersionSpec.display (p : VersionSpec) : String :=
  String.mk (versionSpecChars p)

/-! ## Execution plan (`crates/resolver/src/execution.rs`)

`PackageId` is modelled by `Nat`; `DependencyGraph` (defined in the
resolver's `graph` module) is used here exactly as `from_sorted_packages`
reads it: a node map and an edge map `from_id -> to_ids` meaning each
`to_id` depends on `from_id`.  The Rust `remaining` set is a `HashSet`;
it is modelled as a duplicate-free list in the order of `sorted`, which
fixes an iteration order without changing any batch's membership. -/

/-- The `DependencyGraph` fields `from_sorted_packages` reads: node ids
and the edge map `from -> [to]`. -/
structure DependencyGraph where
  nodes : List Nat
  edges : List (Nat × List Nat)
deriving DecidableEq, Repr

/-- The `deps_count` computed inside the batching loop: how many edge
entries with a still-remaining source point at `p`. -/
def depsCount (edges : List (Nat × List Nat)) (remaining : List Nat) (p : Nat) : Nat :=
  (edges.filter fun e => remaining.contains e.1 && e.2.contains p).length

/-- The in-degree `from_sorted_packages` stores in each node's
metadata: how many edge entries point at `p`. -/
def inDegree (g : DependencyGraph) (p : Nat) : Nat :=
  (g.edges.filter fun e => e.2.contains p).length

/-- One iteration of the batching loop: the remaining packages whose
`deps_count` is zero. -/
def nextBatch (edges : List (Nat × List Nat)) (remaining : List Nat) : List Nat :=
  remaining.filter fun p => depsCount edges remaining p == 0

/-- The `while !remaining.is_empty()` loop of `from_sorted_packages`,
with the loop variant (`remaining` shrinks every iteration) made
explicit as fuel; `remaining.length` fuel always suffices. -/
def buildBatches (edges : List (Nat × List Nat)) : Nat → List Nat → List (List Nat)
  | 0, _ => []
  | fuel + 1, remaining =>
    if remaining.isEmpty then []
    else
      let batch := nextBatch edges remaining
      if batch.isEmpty then []
      else batch :: buildBatches edges fuel (remaining.filter fun p => !batch.contains p)

/-- The batches of `ExecutionPlan::from_sorted_packages`: the
`HashSet` collect of `sorted` (deduplication) followed by the batching
loop. -/
def fromSortedPackages (sorted : List Nat) (g : DependencyGraph) : List (List Nat) :=
  buildBatches g.edges sorted.dedup.length sorted.dedup

/-! ## Helper lemmas -/

/-- A nonempty list has an element minimizing any `Nat`-valued rank. -/
theorem exists_min_rank (f : Nat → Nat) :
    ∀ l : List Nat, l ≠ [] → ∃ a ∈ l, ∀ b ∈ l, f a ≤ f b
  | [], h => absurd rfl h
  | [a], _ => ⟨a, List.mem_singleton_self a, by
      intro b hb
      rw [List.mem_singleton.mp hb]⟩
  | a :: b :: t, _ => by
    obtain ⟨m, hm, hmin⟩ := exists_min_rank f (b :: t) (by simp)
    by_cases hle : f a ≤ f m
    · refine ⟨a, List.mem_cons_self a _, ?_⟩
      intro x hx
      rcases List.mem_cons.mp hx with rfl | hx
      · exact le_refl _
      · exact le_trans hle (hmin x hx)
    · refine ⟨m, List.mem_cons_of_mem a hm, ?_⟩
      intro x hx
      rcases List.mem_cons.mp hx with rfl | hx
      · exact le_of_not_le hle
      · exact hmin x hx

/-- A bad local file (missing, or without the `.sp` extension) makes
`validateLocalFiles` fail. -/
theorem validateLocalFiles_error_of_bad (l : List LocalFile) (f : LocalFile)
    (hf : f ∈ l) (hbad : f.fsExists = false ∨ f.extension ≠ some "sp") :
    ∃ e, validateLocalFiles l = .error e := by
  induction l with
  | nil => cases hf
  | cons g rest ih =>
    by_cases hex : g.fsExists
    · by_cases hext : g.extension = some "sp"
      · have hgood : (match g.extension with
            | none => true
            | some ext => ext != "sp") = false := by
          rw [hext]
          simp
        rcases List.mem_cons.mp hf with rfl | hf'
        · rcases hbad with hb | hb
          · rw [hex] at hb
            cases hb
          · exact absurd hext hb
        · obtain ⟨e, he⟩ := ih hf'
          exact ⟨e, by simp [validateLocalFiles, hex, hgood, he]⟩
      · have hbadx : (match g.extension with
            | none => true
            | some ext => ext != "sp") = true := by
          cases hx : g.extension with
          | none => rfl
          | some s =>
            rw [hx] at hext
            simp only [bne_iff_ne, ne_eq]
            intro hs
            exact hext (by rw [hs])
        exact ⟨.invalidPackageFile g.path "file must have .sp extension",
          by simp [validateLocalFiles, hex, hbadx]⟩
    · exact ⟨.localPackageNotFound g.path,
        by simp [validateLocalFiles, Bool.eq_false_iff.mpr hex,
          Bool.not_eq_true' .. |>.mpr (Bool.eq_false_iff.mpr hex)]⟩

/-! ## Claim theorems -/

/-- C8: `apply_legacy_fields` collapses the legacy flags: when both
`fail_on_discrepancy` and `auto_heal` are set they determine
`discrepancy_handling`; a set `preserve_user_files` determines
`user_file_policy` (`true` is Preserve, `false` is Remove); and all
three legacy fields are `None` afterwards. -/
theorem c8_apply_legacy_fields (c : VerificationConfig) :
    (∀ b1 b2, c.fail_on_discrepancy = some b1 → c.auto_heal = some b2 →
      c.applyLegacyFields.discrepancy_handling = legacyDiscrepancyHandling b1 b2) ∧
    (∀ p, c.preserve_user_files = some p →
      c.applyLegacyFields.user_file_policy =
        (if p then UserFilePolicy.preserve else UserFilePolicy.remove)) ∧
    c.applyLegacyFields.fail_on_discrepancy = none ∧
    c.applyLegacyFields.auto_heal = none ∧
    c.applyLegacyFields.preserve_user_files = none := by
  obtain ⟨e, lv, dh, o, u, fd, ah, pu⟩ := c
  rcases fd with - | fb <;> rcases ah with - | ab <;> rcases pu with - | pb <;>
    first
      | (cases fb <;> cases ab <;> cases pb <;>
          simp [VerificationConfig.applyLegacyFields, legacyDiscrepancyHandling])
      | (cases fb <;> cases ab <;>
          simp [VerificationConfig.applyLegacyFields, legacyDiscrepancyHandling])
      | (cases fb <;> cases pb <;>
          simp [VerificationConfig.applyLegacyFields, legacyDiscrepancyHandling])
      | (cases ab <;> cases pb <;>
          simp [VerificationConfig.applyLegacyFields, legacyDiscrepancyHandling])
      | (cases fb <;>
          simp [VerificationConfig.applyLegacyFields, legacyDiscrepancyHandling])
      | (cases ab <;>
          simp [VerificationConfig.applyLegacyFields, legacyDiscrepancyHandling])
      | (cases pb <;>
          simp [VerificationConfig.applyLegacyFields, legacyDiscrepancyHandling])
      | simp [VerificationConfig.applyLegacyFields, legacyDiscrepancyHandling]

/-- C8 witness: a concrete config with all three legacy flags set. -/
theorem c8_witness :
    (VerificationConfig.mk true "standard" .failFast "preserve" .preserve
        (some true) (some false) (some false)).applyLegacyFields.discrepancy_handling =
        legacyDiscrepancyHandling true false ∧
    (VerificationConfig.mk true "standard" .failFast "preserve" .preserve
        (some true) (some false) (some false)).applyLegacyFields.user_file_policy =
        (if false then UserFilePolicy.preserve else UserFilePolicy.remove) ∧
    (VerificationConfig.mk true "standard" .failFast "preserve" .preserve
        (some true) (some false) (some false)).applyLegacyFields.fail_on_discrepancy = none :=
  ⟨(c8_apply_legacy_fields _).1 true false rfl rfl,
    (c8_apply_legacy_fields _).2.1 false rfl,
    (c8_apply_legacy_fields _).2.2.1⟩

/-- C9: `Installer::rollback` on a target state id absent from the state
database returns `StateNotFound`, performs no rollback, and leaves the
state manager (in particular the current state) unchanged. -/
theorem c9_rollback_state_not_found (sm : StateManagerModel) (target : String)
    (h : target ∉ sm.states) :
    rollback sm target = ⟨.error (.stateNotFound target), sm, false⟩ := by
  have hc : sm.states.contains target = false := by
    cases hb : sm.states.contains target with
    | false => rfl
    | true => exact absurd (List.elem_iff.mp hb) h
  simp [rollback, hc, h]

/-- C9 witness: rolling back to an unknown state id. -/
theorem c9_witness :
    "missing" ∉ ["a", "b"] ∧
    rollback ⟨["a", "b"], "a"⟩ "missing" =
      ⟨.error (.stateNotFound "missing"), ⟨["a", "b"], "a"⟩, false⟩ :=
  ⟨by decide, c9_rollback_state_not_found ⟨["a", "b"], "a"⟩ "missing" (by decide)⟩

/-- C10: `install` rejects a context with no named packages and no local
files with `NoPackagesSpecified`; `uninstall` rejects a context with no
named packages with the same error; `update` accepts an empty package
list; and `install` rejects any listed local file that is missing or
lacks the `.sp` extension before the operation executes. -/
theorem c10_context_validation :
    (∀ ctx : InstallContext, ctx.packages = [] → ctx.local_files = [] →
      installRun ctx = ⟨.error .noPackagesSpecified, false⟩) ∧
    (∀ ctx : UninstallContext, ctx.packages = [] →
      uninstallRun ctx = ⟨.error .noPackagesSpecified, false⟩) ∧
    (∀ ctx : UpdateContext, updateRun ctx = ⟨.ok (), true⟩) ∧
    (∀ ctx : InstallContext, ∀ f ∈ ctx.local_files,
      (f.fsExists = false ∨ f.extension ≠ some "sp") →
      ∃ e, installRun ctx = ⟨.error e, false⟩) := by
  refine ⟨?_, ?_, ?_, ?_⟩
  · intro ctx h1 h2
    simp [installRun, validate_install_context, h1, h2]
  · intro ctx h1
    simp [uninstallRun, validate_uninstall_context, h1]
  · intro ctx
    rfl
  · intro ctx f hf hbad
    obtain ⟨e, he⟩ := validateLocalFiles_error_of_bad ctx.local_files f hf hbad
    have hne : ctx.local_files.isEmpty = false := by
      cases hl : ctx.local_files with
      | nil => rw [hl] at hf; cases hf
      | cons a t => rfl
    refine ⟨e, ?_⟩
    simp [installRun, validate_install_context, hne, he]

/-- C10 witness: the three empty contexts plus a context listing a file
with the wrong extension. -/
theorem c10_witness :
    installRun ⟨[], []⟩ = ⟨.error .noPackagesSpecified, false⟩ ∧
    uninstallRun ⟨[]⟩ = ⟨.error .noPackagesSpecified, false⟩ ∧
    updateRun ⟨[]⟩ = ⟨.ok (), true⟩ ∧
    ∃ e, installRun ⟨[], [⟨"pkg.txt", true, some "txt"⟩]⟩ = ⟨.error e, false⟩ :=
  ⟨c10_context_validation.1 ⟨[], []⟩ rfl rfl,
    c10_context_validation.2.1 ⟨[]⟩ rfl,
    c10_context_validation.2.2.1 ⟨[]⟩,
    c10_context_validation.2.2.2 ⟨[], [⟨"pkg.txt", true, some "txt"⟩]⟩ _
      (List.mem_singleton_self _) (Or.inr (by decide))⟩

/-- C6: on a cache miss, a hash mismatch makes `fetch` delete the
downloaded file and return `HashMismatch` after exactly one download
attempt (mismatches are not retried), while a matching hash keeps the
file on disk, records it in the downloads map, and returns its path. -/
theorem c6_fetch_hash_check (downloads : List (String × String))
    (workingDir url expectedHash actualHash : String) (filenameChars : List Char)
    (hmiss : downloads.lookup url = none)
    (hfn : (urlParts url).getLast? = some filenameChars) :
    (actualHash ≠ expectedHash →
      fetch downloads workingDir url expectedHash actualHash =
        ⟨.error (.hashMismatch (String.mk filenameChars) expectedHash actualHash),
          downloads, false, 1⟩) ∧
    (actualHash = expectedHash →
      fetch downloads workingDir url expectedHash actualHash =
        ⟨.ok (workingDir ++ "/" ++ String.mk filenameChars),
          (url, workingDir ++ "/" ++ String.mk filenameChars) :: downloads, true, 1⟩) := by
  constructor
  · intro hne
    simp [fetch, hmiss, hfn, bne_iff_ne, hne]
  · intro heq
    simp [fetch, hmiss, hfn, heq]

/-- C6 witness: one mismatching fetch and one matching fetch. -/
theorem c6_witness :
    ([] : List (String × String)).lookup "https://host/pkg.tar.gz" = none ∧
    (urlParts "https://host/pkg.tar.gz").getLast? =
      some ['p', 'k', 'g', '.', 't', 'a', 'r', '.', 'g', 'z'] ∧
    fetch [] "/work" "https://host/pkg.tar.gz" "aaaa" "bbbb" =
      ⟨.error (.hashMismatch (String.mk ['p', 'k', 'g', '.', 't', 'a', 'r', '.', 'g', 'z'])
        "aaaa" "bbbb"), [], false, 1⟩ ∧
    fetch [] "/work" "https://host/pkg.tar.gz" "aaaa" "aaaa" =
      ⟨.ok ("/work" ++ "/" ++ String.mk ['p', 'k', 'g', '.', 't', 'a', 'r', '.', 'g', 'z']),
        [("https://host/pkg.tar.gz",
          "/work" ++ "/" ++ String.mk ['p', 'k', 'g', '.', 't', 'a', 'r', '.', 'g', 'z'])],
        true, 1⟩ :=
  ⟨rfl, by decide,
    (c6_fetch_hash_check [] "/work" "https://host/pkg.tar.gz" "aaaa" "bbbb" _ rfl
      (by decide)).1 (by decide),
    (c6_fetch_hash_check [] "/work" "https://host/pkg.tar.gz" "aaaa" "aaaa" _ rfl
      (by decide)).2 rfl⟩

/-- C2 counterexample: a tar archive with two top-level directories has
no single-root-dir form, yet tar extraction does not leave the entry
paths unchanged — it still strips the first component. -/
theorem c2_counterexample :
    (tarTopLevelNames [["a", "x"], ["b", "y"]]).length ≠ 1 ∧
    tarDestPaths [] [["a", "x"], ["b", "y"]] ≠ [["a", "x"], ["b", "y"]] := by
  decide

/-- C2 (amended): tar extraction always strips the first path component
(entries with at most one component are skipped, components ≥ 2 become
the new root) regardless of how many top-level directories the archive
has; a zip archive is stripped iff it has exactly one top-level
directory entry and no top-level file, and a zip not in that
single-root-dir form is extracted with entry paths unchanged. -/
theorem c2_archive_stripping (wd : List String) (entries : List (List String))
    (zentries : List ZipEntry) :
    tarDestPaths wd entries =
      (entries.filter fun comps => decide (2 ≤ comps.length)).map (fun comps => wd ++ comps.tail) ∧
    (shouldStripZipComponents zentries = true ↔
      (zipTopLevelDirs zentries).length = 1 ∧ zipHasRootFiles zentries = false) ∧
    (shouldStripZipComponents zentries = false →
      zipDestPaths wd zentries =
        zentries.filterMap fun e => e.enclosedName.map (fun comps => wd ++ comps)) ∧
    (shouldStripZipComponents zentries = true →
      zipDestPaths wd zentries =
        zentries.filterMap fun e =>
          match e.enclosedName with
          | some comps => if 2 ≤ comps.length then some (wd ++ comps.tail) else none
          | none => none) := by
  refine ⟨?_, ?_, ?_, ?_⟩
  · induction entries with
    | nil => rfl
    | cons comps rest ih =>
      by_cases h : comps.length ≤ 1
      · have h2 : ¬2 ≤ comps.length := by omega
        simp [tarDestPaths, List.filterMap_cons, List.filter_cons, h, h2] at ih ⊢
        exact ih
      · have h2 : 2 ≤ comps.length := by omega
        simp [tarDestPaths, List.filterMap_cons, List.filter_cons, h, h2] at ih ⊢
        exact ih
  · simp [shouldStripZipComponents]
  · intro hs
    simp only [zipDestPaths, hs]
    apply List.filterMap_congr
    intro e _
    cases e.enclosedName with
    | none => rfl
    | some comps => simp
  · intro hs
    simp only [zipDestPaths, hs]
    apply List.filterMap_congr
    intro e _
    cases e.enclosedName with
    | none => rfl
    | some comps =>
      by_cases h : 2 ≤ comps.length
      · have h1 : 1 < comps.length := by omega
        simp [h, h1, List.drop_one]
      · have h1 : ¬1 < comps.length := by omega
        simp [h, h1]

/-- C2 witness: a concrete single-root-dir zip is stripped and a
two-root zip is extracted unchanged. -/
theorem c2_witness :
    shouldStripZipComponents [⟨some ["a"], true⟩, ⟨some ["a", "x"], false⟩] = true ∧
    zipDestPaths ["w"] [⟨some ["a"], true⟩, ⟨some ["a", "x"], false⟩] = [["w", "x"]] ∧
    shouldStripZipComponents [⟨some ["a"], true⟩, ⟨some ["b"], true⟩] = false ∧
    zipDestPaths ["w"] [⟨some ["a"], true⟩, ⟨some ["b"], true⟩] = [["w", "a"], ["w", "b"]] ∧
    tarDestPaths ["w"] [["a", "x"], ["top"]] = [["w", "x"]] := by
  have h1 := (c2_archive_stripping ["w"] [["a", "x"], ["top"]]
    [⟨some ["a"], true⟩, ⟨some ["a", "x"], false⟩]).2.2.2 (by decide)
  have h2 := (c2_archive_stripping ["w"] [["a", "x"], ["top"]]
    [⟨some ["a"], true⟩, ⟨some ["b"], true⟩]).2.2.1 (by decide)
  exact ⟨by decide, by rw [h1]; decide, by decide, by rw [h2]; decide, by decide⟩

/-- C7 counterexample: the freshly constructed recovery manager (no
errors recorded yet) has `success_rate` 0, so the claimed condition
`error_count ≤ max_errors ∧ success_rate ≥ 0.5` is false there, yet
`is_recovery_viable` returns true. -/
theorem c7_counterexample :
    ReachableManager (ErrorRecoveryManager.new .autoRecover) ∧
    is_recovery_viable (ErrorRecoveryManager.new .autoRecover) = true ∧
    ¬((ErrorRecoveryManager.new .autoRecover).error_count ≤
        (ErrorRecoveryManager.new .autoRecover).max_errors ∧
      (1 : ℚ) / 2 ≤ (ErrorRecoveryManager.new .autoRecover).recovery_stats.success_rate) :=
  ⟨.newDefault .autoRecover, by decide, by
    intro ⟨_, hrate⟩
    rw [show (ErrorRecoveryManager.new .autoRecover).recovery_stats.success_rate = 0 from rfl]
      at hrate
    exact absurd hrate (by norm_num)⟩

/-- C7 (amended): on every state reachable through `handle_error` calls,
`is_recovery_viable` returns true iff `error_count ≤ max_errors` and in
addition, when at least one error has been recorded,
`success_rate ≥ 0.5`. -/
theorem c7_recovery_viable (m : ErrorRecoveryManager) (_hreach : ReachableManager m) :
    is_recovery_viable m = true ↔
      (m.error_count ≤ m.max_errors ∧
        (m.recovery_stats.total_errors = 0 ∨
          (1 : ℚ) / 2 ≤ m.recovery_stats.success_rate)) := by
  clear _hreach
  unfold is_recovery_viable
  by_cases ht : m.recovery_stats.total_errors = 0
  · simp [ht]
  · simp [ht, Bool.and_eq_true, decide_eq_true_eq]

/-- C7 witness: the amended equivalence evaluated at a reachable state
with one handled, recovered error. -/
theorem c7_witness :
    is_recovery_viable (handle_error (ErrorRecoveryManager.new .continueWithWarnings)
        (.convertToWarning "w")).1 = true ↔
      ((handle_error (ErrorRecoveryManager.new .continueWithWarnings)
          (.convertToWarning "w")).1.error_count ≤
        (handle_error (ErrorRecoveryManager.new .continueWithWarnings)
          (.convertToWarning "w")).1.max_errors ∧
        ((handle_error (ErrorRecoveryManager.new .continueWithWarnings)
            (.convertToWarning "w")).1.recovery_stats.total_errors = 0 ∨
          (1 : ℚ) / 2 ≤ (handle_error (ErrorRecoveryManager.new .continueWithWarnings)
            (.convertToWarning "w")).1.recovery_stats.success_rate)) :=
  c7_recovery_viable _ (.step _ (.convertToWarning "w") (.newDefault .continueWithWarnings))

/-- C5: `~=X.Y.Z` matches `v` iff `v` has the same major and minor and
`v >= X.Y.Z`; concretely `~=1.2.3` matches `1.2.3` and `1.2.99` and
rejects `1.3.0` and `1.2.2`. -/
theorem c5_compatible_release :
    (∀ version req : Version,
      (VersionConstraint.compatible req).matches version = true ↔
        (version.major = req.major ∧ version.minor = req.minor ∧
          versionGe version req = true)) ∧
    versionSpecFromChars "~=1.2.3".data = .ok ⟨[.compatible ⟨1, 2, 3, [], []⟩]⟩ ∧
    (VersionSpec.mk [.compatible ⟨1, 2, 3, [], []⟩]).matches ⟨1, 2, 3, [], []⟩ = true ∧
    (VersionSpec.mk [.compatible ⟨1, 2, 3, [], []⟩]).matches ⟨1, 2, 99, [], []⟩ = true ∧
    (VersionSpec.mk [.compatible ⟨1, 2, 3, [], []⟩]).matches ⟨1, 3, 0, [], []⟩ = false ∧
    (VersionSpec.mk [.compatible ⟨1, 2, 3, [], []⟩]).matches ⟨1, 2, 2, [], []⟩ = false := by
  refine ⟨?_, by decide, by decide, by decide, by decide, by decide⟩
  intro version req
  simp only [VersionConstraint.matches, Bool.and_eq_true, beq_iff_eq]
  constructor
  · rintro ⟨⟨hge, hmaj⟩, hmin⟩
    exact ⟨hmaj, hmin, hge⟩
  · rintro ⟨hmaj, hmin, hge⟩
    exact ⟨⟨hge, hmaj⟩, hmin⟩

/-- C3: the version specification `>=1.2,<2.0,!=1.5.0` does not parse:
the semver crate rejects the two-component version `1.2`, so
`VersionSpec::from_str` returns a `ParseError` — contradicting the
module's own doc comment, which lists exactly this string as a
supported multi-constraint example. -/
theorem c3_version_spec_parse_fails :
    VersionSpec.fromStr ">=1.2,<2.0,!=1.5.0" = .error (.parseError "invalid semver") ∧
    parseVersionChars "1.2".data = none ∧
    parseVersionChars "2.0".data = none := by
  refine ⟨?_, by decide, by decide⟩
  show versionSpecFromChars ">=1.2,<2.0,!=1.5.0".data = .error (.parseError "invalid semver")
  decide

/-! ## Round-trip lemmas for the version display/parse pair (C4) -/

/-- Two characters differ when a Boolean character predicate separates
them. -/
theorem char_ne_of_pred (P : Char → Bool) (c x : Char) (h : P c = true)
    (hx : P x = false) : c ≠ x := by
  intro e
  rw [e, hx] at h
  cases h

/-- A character satisfying a predicate that rejects all four whitespace
characters is not whitespace. -/
theorem ws_false_of_pred (P : Char → Bool) (c : Char) (h : P c = true)
    (h1 : P ' ' = false) (h2 : P '\t' = false) (h3 : P '\r' = false)
    (h4 : P '\n' = false) : c.isWhitespace = false := by
  simp only [Char.isWhitespace, Bool.or_eq_false_iff, decide_eq_false_iff_not]
  refine ⟨⟨⟨?_, ?_⟩, ?_⟩, ?_⟩ <;> intro e <;> rw [e] at h
  · rw [h1] at h; cases h
  · rw [h2] at h; cases h
  · rw [h3] at h; cases h
  · rw [h4] at h; cases h

/-- `dropWhile` is the identity on a list whose elements all fail the
predicate. -/
theorem dropWhile_eq_self_of_false (p : Char → Bool) (l : List Char)
    (h : ∀ c ∈ l, p c = false) : l.dropWhile p = l := by
  cases l with
  | nil => rfl
  | cons c t =>
    rw [List.dropWhile_cons, h c (List.mem_cons_self c t)]
    simp

/-- `trimChars` is the identity on whitespace-free lists. -/
theorem trimChars_eq_self (l : List Char) (h : ∀ c ∈ l, c.isWhitespace = false) :
    trimChars l = l := by
  unfold trimChars
  rw [dropWhile_eq_self_of_false _ l h,
    dropWhile_eq_self_of_false _ l.reverse (fun c hc => h c (List.mem_reverse.mp hc)),
    List.reverse_reverse]

/-- `splitAtFirst` finds nothing when the separator does not occur. -/
theorem splitAtFirst_of_not_mem (sep : Char) (l : List Char) (h : sep ∉ l) :
    splitAtFirst sep l = (l, none) := by
  induction l with
  | nil => rfl
  | cons c t ih =>
    have hc : c ≠ sep := fun e => h (e ▸ List.mem_cons_self c t)
    have ht : sep ∉ t := fun m => h (List.mem_cons_of_mem c m)
    simp [splitAtFirst, hc, ih ht]

/-- `splitAtFirst` splits at the first separator occurrence. -/
theorem splitAtFirst_append (sep : Char) (a b : List Char) (h : sep ∉ a) :
    splitAtFirst sep (a ++ sep :: b) = (a, some b) := by
  induction a with
  | nil => simp [splitAtFirst]
  | cons c t ih =>
    have hc : c ≠ sep := fun e => h (e ▸ List.mem_cons_self c t)
    have ht : sep ∉ t := fun m => h (List.mem_cons_of_mem c m)
    simp [splitAtFirst, hc, ih ht]

/-- `splitOnChar` returns the whole list when the separator does not
occur. -/
theorem splitOnChar_of_not_mem (sep : Char) (l : List Char) (h : sep ∉ l) :
    splitOnChar sep l = [l] := by
  induction l with
  | nil => rfl
  | cons c t ih =>
    have hc : c ≠ sep := fun e => h (e ▸ List.mem_cons_self c t)
    have ht : sep ∉ t := fun m => h (List.mem_cons_of_mem c m)
    rw [splitOnChar, ih ht]
    simp [hc]

/-- `splitOnChar` peels off a separator-free first chunk. -/
theorem splitOnChar_append (sep : Char) (a b : List Char) (h : sep ∉ a) :
    splitOnChar sep (a ++ sep :: b) = a :: splitOnChar sep b := by
  induction a with
  | nil => simp [splitOnChar]
  | cons c t ih =>
    have hc : c ≠ sep := fun e => h (e ▸ List.mem_cons_self c t)
    have ht : sep ∉ t := fun m => h (List.mem_cons_of_mem c m)
    rw [List.cons_append, splitOnChar, ih ht]
    simp [hc]

/-- `splitOnChar` never returns the empty list. -/
theorem splitOnChar_ne_nil (sep : Char) (l : List Char) : splitOnChar sep l ≠ [] := by
  cases l with
  | nil => simp [splitOnChar]
  | cons c t =>
    rw [splitOnChar]
    split
    · simp
    · split <;> simp

/-- Every character of a list is the separator or lies in one of its
`splitOnChar` chunks. -/
theorem mem_splitOnChar (sep : Char) (l : List Char) (c : Char) (h : c ∈ l) :
    c = sep ∨ ∃ part ∈ splitOnChar sep l, c ∈ part := by
  induction l with
  | nil => cases h
  | cons x t ih =>
    rw [splitOnChar]
    rcases List.mem_cons.mp h with rfl | hmem
    · by_cases hx : c = sep
      · left; exact hx
      · right
        simp only [if_neg hx]
        rcases hr : splitOnChar sep t with - | ⟨p, ps⟩
        · exact absurd hr (splitOnChar_ne_nil sep t)
        · exact ⟨c :: p, List.mem_cons_self _ _, List.mem_cons_self _ _⟩
    · rcases ih hmem with hc | ⟨part, hp, hcp⟩
      · left; exact hc
      · right
        by_cases hx : x = sep
        · simp only [if_pos hx]
          exact ⟨part, List.mem_cons_of_mem _ hp, hcp⟩
        · simp only [if_neg hx]
          rcases hr : splitOnChar sep t with - | ⟨p, ps⟩
          · exact absurd hr (splitOnChar_ne_nil sep t)
          · rw [hr] at hp
            rcases List.mem_cons.mp hp with rfl | hp'
            · exact ⟨x :: part, List.mem_cons_self _ _, List.mem_cons_of_mem _ hcp⟩
            · exact ⟨part, List.mem_cons_of_mem _ hp', hcp⟩

/-- `stripLead` removes an exact leading pattern. -/
theorem stripLead_append (p l : List Char) : stripLead p (p ++ l) = some l := by
  induction p with
  | nil => rfl
  | cons c t ih => simp [stripLead, ih]

/-- `stripLead` fails on a leading-character mismatch. -/
theorem stripLead_cons_ne (p : Char) (ps : List Char) (c : Char) (cs : List Char)
    (h : p ≠ c) : stripLead (p :: ps) (c :: cs) = none := by
  simp [stripLead, h]

/-- `charVal` inverts `natDigitChar` below 10. -/
theorem charVal_natDigitChar (d : Nat) (h : d < 10) :
    charVal (natDigitChar d) = d := by
  interval_cases d <;> decide

/-- `natDigitChar` yields digit characters below 10. -/
theorem isDigit_natDigitChar (d : Nat) (h : d < 10) :
    (natDigitChar d).isDigit = true := by
  interval_cases d <;> decide

/-- `natDigitChar` yields `'0'` only at 0 (below 10). -/
theorem natDigitChar_ne_zero (d : Nat) (h : d < 10) (h0 : d ≠ 0) :
    natDigitChar d ≠ '0' := by
  interval_cases d
  · exact absurd rfl h0
  all_goals decide

/-- Peeling a final digit off `digitsToNat`. -/
theorem digitsToNat_append (a : List Char) (c : Char) :
    digitsToNat (a ++ [c]) = 10 * digitsToNat a + charVal c := by
  unfold digitsToNat
  rw [List.foldl_append]
  rfl

/-- `digitsToNat` inverts the digit rendering of `Nat.digits`. -/
theorem digitsToNat_rev_map (ds : List Nat) (h : ∀ d ∈ ds, d < 10) :
    digitsToNat (ds.reverse.map natDigitChar) = Nat.ofDigits 10 ds := by
  induction ds with
  | nil => rfl
  | cons d t ih =>
    rw [List.reverse_cons, List.map_append, List.map_singleton, digitsToNat_append,
      ih (fun x hx => h x (List.mem_cons_of_mem d hx)),
      charVal_natDigitChar d (h d (List.mem_cons_self d t)), Nat.ofDigits_cons]
    ring

/-- `natToChars` is never empty. -/
theorem natToChars_ne_nil (n : Nat) : natToChars n ≠ [] := by
  unfold natToChars
  split
  · simp
  · simp [Nat.digits_ne_nil_iff_ne_zero, *]

/-- Every character of `natToChars` is a digit. -/
theorem mem_natToChars_isDigit (n : Nat) (c : Char) (h : c ∈ natToChars n) :
    c.isDigit = true := by
  unfold natToChars at h
  split at h
  · rw [List.mem_singleton.mp h]
    decide
  · obtain ⟨d, hd, rfl⟩ := List.mem_map.mp h
    exact isDigit_natDigitChar d
      (Nat.digits_lt_base (by norm_num) (List.mem_reverse.mp hd))

/-- `digitsToNat` inverts `natToChars`. -/
theorem digitsToNat_natToChars (n : Nat) : digitsToNat (natToChars n) = n := by
  unfold natToChars
  split
  · subst ‹n = 0›
    decide
  · rw [digitsToNat_rev_map _ (fun d hd => Nat.digits_lt_base (by norm_num) hd),
      Nat.ofDigits_digits]

/-- The leading character of `natToChars n` is `'0'` only for `n = 0`. -/
theorem natToChars_head_ne_zero (n : Nat) (h : n ≠ 0) :
    (natToChars n).head? ≠ some '0' := by
  unfold natToChars
  rw [if_neg h]
  have hne : Nat.digits 10 n ≠ [] := Nat.digits_ne_nil_iff_ne_zero.mpr h
  rw [List.head?_map, List.head?_reverse, List.getLast?_eq_getLast _ hne]
  intro e
  have hd := Nat.getLast_digit_ne_zero 10 h
  have hlt : (Nat.digits 10 n).getLast hne < 10 :=
    Nat.digits_lt_base (by norm_num) (List.getLast_mem hne)
  exact natDigitChar_ne_zero _ hlt hd (Option.some.inj e)

/-- `parseNumeric` inverts `natToChars`. -/
theorem parseNumeric_natToChars (n : Nat) : parseNumeric (natToChars n) = some n := by
  unfold parseNumeric
  rw [if_neg (by simp [List.isEmpty_iff, natToChars_ne_nil n]),
    if_neg (by simp [List.all_eq_true]; exact mem_natToChars_isDigit n)]
  by_cases hn : n = 0
  · subst hn
    decide
  · rw [if_neg ?_, digitsToNat_natToChars]
    have := natToChars_head_ne_zero n hn
    simp only [Bool.and_eq_true, beq_iff_eq, decide_eq_true_eq, not_and]
    intro _
    simpa using this

/-- Characters of `versionChars` are digits, separators
(`.`/`-`/`+`), or identifier characters of a valid prerelease/build. -/
theorem mem_versionChars (v : Version) (hv : v.Valid) (c : Char)
    (h : c ∈ versionChars v) :
    c.isDigit = true ∨ c = '.' ∨ c = '-' ∨ c = '+' ∨ isIdentChar c = true := by
  obtain ⟨hpre, hbuild⟩ := hv
  unfold versionChars at h
  have hseg : ∀ seg : List Char, validPre seg = true ∨ validBuild seg = true → c ∈ seg →
      c = '.' ∨ isIdentChar c = true := by
    intro seg hval hc
    rcases mem_splitOnChar '.' seg c hc with rfl | ⟨part, hp, hcp⟩
    · left; rfl
    · right
      rcases hval with hval | hval
      · have := List.all_eq_true.mp hval part hp
        have hall := (Bool.and_eq_true _ _ |>.mp ((Bool.and_eq_true _ _ |>.mp this).1)).2
        exact List.all_eq_true.mp hall c hcp
      · have := List.all_eq_true.mp hval part hp
        have hall := (Bool.and_eq_true _ _ |>.mp this).2
        exact List.all_eq_true.mp hall c hcp
  rcases List.mem_append.mp h with h1 | hb
  rotate_left
  · by_cases he : v.build.isEmpty
    · rw [if_pos he] at hb
      cases hb
    · rw [if_neg he] at hb
      rcases List.mem_cons.mp hb with rfl | hb'
      · exact Or.inr (Or.inr (Or.inr (Or.inl rfl)))
      · have hvb : validBuild v.build = true := by
          rcases Bool.or_eq_true _ _ |>.mp hbuild with h' | h'
          · exact absurd h' he
          · exact h'
        rcases hseg v.build (Or.inr hvb) hb' with h' | h'
        · exact Or.inr (Or.inl h')
        · exact Or.inr (Or.inr (Or.inr (Or.inr h')))
  rcases List.mem_append.mp h1 with h2 | hp
  rotate_left
  · by_cases he : v.pre.isEmpty
    · rw [if_pos he] at hp
      cases hp
    · rw [if_neg he] at hp
      rcases List.mem_cons.mp hp with rfl | hp'
      · exact Or.inr (Or.inr (Or.inl rfl))
      · have hvp : validPre v.pre = true := by
          rcases Bool.or_eq_true _ _ |>.mp hpre with h' | h'
          · exact absurd h' he
          · exact h'
        rcases hseg v.pre (Or.inl hvp) hp' with h' | h'
        · exact Or.inr (Or.inl h')
        · exact Or.inr (Or.inr (Or.inr (Or.inr h')))
  rcases List.mem_append.mp h2 with h3 | h4
  rotate_left
  · exact Or.inl (mem_natToChars_isDigit _ _ h4)
  rcases List.mem_append.mp h3 with h5 | h6
  rotate_left
  · rw [List.mem_singleton.mp h6]
    exact Or.inr (Or.inl rfl)
  rcases List.mem_append.mp h5 with h7 | h8
  rotate_left
  · exact Or.inl (mem_natToChars_isDigit _ _ h8)
  rcases List.mem_append.mp h7 with h9 | h10
  · exact Or.inl (mem_natToChars_isDigit _ _ h9)
  · rw [List.mem_singleton.mp h10]
    exact Or.inr (Or.inl rfl)

/-- No character of a valid version's rendering is whitespace. -/
theorem mem_versionChars_not_ws (v : Version) (hv : v.Valid) (c : Char)
    (h : c ∈ versionChars v) : c.isWhitespace = false := by
  rcases mem_versionChars v hv c h with hd | rfl | rfl | rfl | hi
  · exact ws_false_of_pred Char.isDigit c hd (by decide) (by decide) (by decide) (by decide)
  · decide
  · decide
  · decide
  · exact ws_false_of_pred isIdentChar c hi (by decide) (by decide) (by decide) (by decide)

/-- No character of a valid version's rendering is a comma. -/
theorem mem_versionChars_ne_comma (v : Version) (hv : v.Valid) (c : Char)
    (h : c ∈ versionChars v) : c ≠ ',' := by
  rcases mem_versionChars v hv c h with hd | rfl | rfl | rfl | hi
  · exact char_ne_of_pred Char.isDigit c ',' hd (by decide)
  · decide
  · decide
  · decide
  · exact char_ne_of_pred isIdentChar c ',' hi (by decide)

/-- Characters of a valid prerelease are identifier characters or
dots. -/
theorem mem_validPre (p : List Char) (hp : validPre p = true) (c : Char)
    (hc : c ∈ p) : isIdentChar c = true ∨ c = '.' := by
  rcases mem_splitOnChar '.' p c hc with rfl | ⟨part, hpart, hcp⟩
  · right; rfl
  · left
    have hall := List.all_eq_true.mp hp part hpart
    have hchars := (Bool.and_eq_true _ _ |>.mp ((Bool.and_eq_true _ _ |>.mp hall).1)).2
    exact List.all_eq_true.mp hchars c hcp

/-- Characters of valid build metadata are identifier characters or
dots. -/
theorem mem_validBuild (p : List Char) (hp : validBuild p = true) (c : Char)
    (hc : c ∈ p) : isIdentChar c = true ∨ c = '.' := by
  rcases mem_splitOnChar '.' p c hc with rfl | ⟨part, hpart, hcp⟩
  · right; rfl
  · left
    have hall := List.all_eq_true.mp hp part hpart
    have hchars := (Bool.and_eq_true _ _ |>.mp hall).2
    exact List.all_eq_true.mp hchars c hcp

/-- Parsing the numeric core of a rendered version recovers the
triple. -/
theorem parseVersionCore_render (ma mi pa : Nat) :
    parseVersionCore
      (natToChars ma ++ ['.'] ++ natToChars mi ++ ['.'] ++ natToChars pa) =
      some (ma, mi, pa) := by
  have hdot : ∀ n : Nat, '.' ∉ natToChars n := fun n hm =>
    absurd (mem_natToChars_isDigit n '.' hm) (by decide)
  have hsplit :
      splitOnChar '.' (natToChars ma ++ ['.'] ++ natToChars mi ++ ['.'] ++ natToChars pa) =
        [natToChars ma, natToChars mi, natToChars pa] := by
    simp only [List.append_assoc, List.singleton_append, List.cons_append, List.nil_append]
    rw [splitOnChar_append '.' _ _ (hdot ma), splitOnChar_append '.' _ _ (hdot mi),
      splitOnChar_of_not_mem '.' _ (hdot pa)]
  unfold parseVersionCore
  rw [hsplit]
  simp [parseNumeric_natToChars]

/-- `semver::Version::parse` inverts `Display` on valid versions. -/
theorem parseVersionChars_versionChars (v : Version) (hv : v.Valid) :
    parseVersionChars (versionChars v) = some v := by
  obtain ⟨ma, mi, pa, pre, bld⟩ := v
  obtain ⟨hpre, hbld⟩ := hv
  simp only at hpre hbld
  have hcoreMem : ∀ c ∈ natToChars ma ++ ['.'] ++ natToChars mi ++ ['.'] ++ natToChars pa,
      c.isDigit = true ∨ c = '.' := by
    intro c hc
    rcases List.mem_append.mp hc with h1 | h2
    rotate_left
    · exact Or.inl (mem_natToChars_isDigit pa c h2)
    rcases List.mem_append.mp h1 with h3 | h4
    rotate_left
    · exact Or.inr (List.mem_singleton.mp h4)
    rcases List.mem_append.mp h3 with h5 | h6
    rotate_left
    · exact Or.inl (mem_natToChars_isDigit mi c h6)
    rcases List.mem_append.mp h5 with h7 | h8
    · exact Or.inl (mem_natToChars_isDigit ma c h7)
    · exact Or.inr (List.mem_singleton.mp h8)
  have hdashcore : '-' ∉ natToChars ma ++ ['.'] ++ natToChars mi ++ ['.'] ++ natToChars pa := by
    intro hm
    rcases hcoreMem '-' hm with h | h
    · exact absurd h (by decide)
    · exact absurd h (by decide)
  have hpluscore : '+' ∉ natToChars ma ++ ['.'] ++ natToChars mi ++ ['.'] ++ natToChars pa := by
    intro hm
    rcases hcoreMem '+' hm with h | h
    · exact absurd h (by decide)
    · exact absurd h (by decide)
  by_cases hpe : pre.isEmpty <;> by_cases hbe : bld.isEmpty
  · have hpnil : pre = [] := List.isEmpty_iff.mp hpe
    have hbnil : bld = [] := List.isEmpty_iff.mp hbe
    subst hpnil hbnil
    have h1 : versionChars ⟨ma, mi, pa, [], []⟩ =
        natToChars ma ++ ['.'] ++ natToChars mi ++ ['.'] ++ natToChars pa := by
      show (natToChars ma ++ ['.'] ++ natToChars mi ++ ['.'] ++ natToChars pa) ++ [] ++ [] = _
      rw [List.append_nil, List.append_nil]
    rw [h1]
    unfold parseVersionChars
    rw [splitAtFirst_of_not_mem '+' _ hpluscore]
    dsimp only
    rw [splitAtFirst_of_not_mem '-' _ hdashcore]
    dsimp only
    rw [parseVersionCore_render]
    rfl
  · have hpnil : pre = [] := List.isEmpty_iff.mp hpe
    subst hpnil
    have hvb : validBuild bld = true := by
      rcases Bool.or_eq_true _ _ |>.mp hbld with h' | h'
      · exact absurd h' hbe
      · exact h'
    have hplusbld : '+' ∉ bld := by
      intro hm
      rcases mem_validBuild bld hvb '+' hm with h | h
      · exact absurd h (by decide)
      · exact absurd h (by decide)
    have h1 : versionChars ⟨ma, mi, pa, [], bld⟩ =
        (natToChars ma ++ ['.'] ++ natToChars mi ++ ['.'] ++ natToChars pa) ++ '+' :: bld := by
      show (natToChars ma ++ ['.'] ++ natToChars mi ++ ['.'] ++ natToChars pa) ++ [] ++
        (if bld.isEmpty then [] else '+' :: bld) = _
      rw [List.append_nil, if_neg hbe]
    rw [h1]
    unfold parseVersionChars
    rw [splitAtFirst_append '+' _ _ hpluscore]
    dsimp only
    rw [splitAtFirst_of_not_mem '-' _ hdashcore]
    dsimp only
    rw [parseVersionCore_render]
    dsimp only
    rw [hvb]
    rfl
  · have hbnil : bld = [] := List.isEmpty_iff.mp hbe
    subst hbnil
    have hvp : validPre pre = true := by
      rcases Bool.or_eq_true _ _ |>.mp hpre with h' | h'
      · exact absurd h' hpe
      · exact h'
    have hpluspre : '+' ∉ '-' :: pre := by
      intro hm
      rcases List.mem_cons.mp hm with h | hm'
      · exact absurd h (by decide)
      · rcases mem_validPre pre hvp '+' hm' with h | h
        · exact absurd h (by decide)
        · exact absurd h (by decide)
    have h1 : versionChars ⟨ma, mi, pa, pre, []⟩ =
        (natToChars ma ++ ['.'] ++ natToChars mi ++ ['.'] ++ natToChars pa) ++ '-' :: pre := by
      show (natToChars ma ++ ['.'] ++ natToChars mi ++ ['.'] ++ natToChars pa) ++
        (if pre.isEmpty then [] else '-' :: pre) ++ [] = _
      rw [List.append_nil, if_neg hpe]
    rw [h1]
    unfold parseVersionChars
    rw [splitAtFirst_of_not_mem '+' _ (by
      intro hm
      rcases List.mem_append.mp hm with h | h
      · exact hpluscore h
      · exact hpluspre h)]
    dsimp only
    rw [splitAtFirst_append '-' _ _ hdashcore]
    dsimp only
    rw [parseVersionCore_render]
    dsimp only
    rw [hvp]
    rfl
  · have hvp : validPre pre = true := by
      rcases Bool.or_eq_true _ _ |>.mp hpre with h' | h'
      · exact absurd h' hpe
      · exact h'
    have hvb : validBuild bld = true := by
      rcases Bool.or_eq_true _ _ |>.mp hbld with h' | h'
      · exact absurd h' hbe
      · exact h'
    have hpluspre : '+' ∉ '-' :: pre := by
      intro hm
      rcases List.mem_cons.mp hm with h | hm'
      · exact absurd h (by decide)
      · rcases mem_validPre pre hvp '+' hm' with h | h
        · exact absurd h (by decide)
        · exact absurd h (by decide)
    have h1 : versionChars ⟨ma, mi, pa, pre, bld⟩ =
        ((natToChars ma ++ ['.'] ++ natToChars mi ++ ['.'] ++ natToChars pa) ++ '-' :: pre)
          ++ '+' :: bld := by
      show (natToChars ma ++ ['.'] ++ natToChars mi ++ ['.'] ++ natToChars pa) ++
        (if pre.isEmpty then [] else '-' :: pre) ++
        (if bld.isEmpty then [] else '+' :: bld) = _
      rw [if_neg hpe, if_neg hbe]
    rw [h1]
    unfold parseVersionChars
    rw [splitAtFirst_append '+' _ _ (by
      intro hm
      rcases List.mem_append.mp hm with h | h
      · exact hpluscore h
      · exact hpluspre h)]
    dsimp only
    rw [splitAtFirst_append '-' _ _ hdashcore]
    dsimp only
    rw [parseVersionCore_render]
    dsimp only
    rw [hvp, hvb]
    rfl

/-- `stripLead` on a two-character pattern with a matching first but
mismatching second character. -/
theorem stripLead_snd_ne (a b c : Char) (cs : List Char) (h : b ≠ c) :
    stripLead [a, b] (a :: c :: cs) = none := by
  simp [stripLead, h]

/-- `stripLead` on a one-character matching pattern. -/
theorem stripLead_one (a : Char) (l : List Char) : stripLead [a] (a :: l) = some l := by
  simp [stripLead]

/-- A rendered version starts with a digit. -/
theorem versionChars_head (v : Version) :
    ∃ d rest, versionChars v = d :: rest ∧ d.isDigit = true := by
  cases hA : natToChars v.major with
  | nil => exact absurd hA (natToChars_ne_nil v.major)
  | cons d t =>
    have hd : d.isDigit = true :=
      mem_natToChars_isDigit v.major d (by rw [hA]; exact List.mem_cons_self d t)
    refine ⟨d, t ++ ['.'] ++ natToChars v.minor ++ ['.'] ++ natToChars v.patch
      ++ (if v.pre.isEmpty then [] else '-' :: v.pre)
      ++ (if v.build.isEmpty then [] else '+' :: v.build), ?_, hd⟩
    rw [versionChars, hA]
    simp only [List.cons_append, List.append_assoc]

/-- Rendered constraints contain no whitespace. -/
theorem mem_constraintChars_not_ws (k : VersionConstraint) (h : k.version.Valid)
    (c : Char) (hc : c ∈ constraintChars k) : c.isWhitespace = false := by
  rcases List.mem_append.mp hc with hop | hver
  · have hops : ∀ x ∈ constraintOp k, x.isWhitespace = false := by
      cases k <;> simp only [constraintOp] <;> decide
    exact hops c hop
  · exact mem_versionChars_not_ws _ h c hver

/-- Rendered constraints contain no comma. -/
theorem mem_constraintChars_ne_comma (k : VersionConstraint) (h : k.version.Valid)
    (c : Char) (hc : c ∈ constraintChars k) : c ≠ ',' := by
  rcases List.mem_append.mp hc with hop | hver
  · have hops : ∀ x ∈ constraintOp k, x ≠ ',' := by
      cases k <;> simp only [constraintOp] <;> decide
    exact hops c hop
  · exact mem_versionChars_ne_comma _ h c hver

/-- Trimming a rendered constraint is the identity. -/
theorem trimChars_constraintChars (k : VersionConstraint) (h : k.version.Valid) :
    trimChars (constraintChars k) = constraintChars k :=
  trimChars_eq_self _ (mem_constraintChars_not_ws k h)

/-- Parsing the operand after an operator recovers the version. -/
theorem parseOperand_versionChars (mk : Version → VersionConstraint) (v : Version)
    (h : v.Valid) : parseOperand mk (versionChars v) = .ok (mk v) := by
  unfold parseOperand
  rw [trimChars_eq_self _ (fun c hc => mem_versionChars_not_ws v h c hc),
    parseVersionChars_versionChars v h]

/-- `VersionConstraint::parse` inverts `Display` on valid constraints. -/
theorem constraintParse_round (k : VersionConstraint) (h : k.version.Valid) :
    constraintParse (constraintChars k) = .ok k := by
  unfold constraintParse
  rw [trimChars_constraintChars k h]
  cases k with
  | exact v =>
    dsimp only [constraintChars, constraintOp]
    exact parseOperand_versionChars .exact v h
  | greaterEqual v =>
    dsimp only [constraintChars, constraintOp]
    exact parseOperand_versionChars .greaterEqual v h
  | lessEqual v =>
    dsimp only [constraintChars, constraintOp]
    exact parseOperand_versionChars .lessEqual v h
  | notEqual v =>
    dsimp only [constraintChars, constraintOp]
    exact parseOperand_versionChars .notEqual v h
  | compatible v =>
    dsimp only [constraintChars, constraintOp]
    exact parseOperand_versionChars .compatible v h
  | greater v =>
    obtain ⟨d, rest, hvc, hd⟩ := versionChars_head v
    have hdne : ('=' : Char) ≠ d :=
      (char_ne_of_pred Char.isDigit d '=' hd (by decide)).symm
    have hge : stripLead ['>', '='] ('>' :: d :: rest) = none := by
      show stripLead ['='] (d :: rest) = none
      exact stripLead_cons_ne _ _ _ _ hdne
    dsimp only [constraintChars, constraintOp, VersionConstraint.version]
    rw [hvc]
    simp only [List.singleton_append]
    rw [hge, ← hvc]
    exact parseOperand_versionChars .greater v h
  | less v =>
    obtain ⟨d, rest, hvc, hd⟩ := versionChars_head v
    have hdne : ('=' : Char) ≠ d :=
      (char_ne_of_pred Char.isDigit d '=' hd (by decide)).symm
    have hle : stripLead ['<', '='] ('<' :: d :: rest) = none := by
      show stripLead ['='] (d :: rest) = none
      exact stripLead_cons_ne _ _ _ _ hdne
    dsimp only [constraintChars, constraintOp, VersionConstraint.version]
    rw [hvc]
    simp only [List.singleton_append]
    rw [hle, ← hvc]
    exact parseOperand_versionChars .less v h

/-- Every character of a comma-join is a comma or belongs to one of the
parts. -/
theorem mem_joinComma (parts : List (List Char)) (c : Char) (h : c ∈ joinComma parts) :
    c = ',' ∨ ∃ part ∈ parts, c ∈ part := by
  induction parts with
  | nil => cases h
  | cons x rest ih =>
    cases rest with
    | nil =>
      right
      exact ⟨x, List.mem_singleton_self x, h⟩
    | cons y t =>
      rw [show joinComma (x :: y :: t) = x ++ ',' :: joinComma (y :: t) from rfl] at h
      rcases List.mem_append.mp h with hx | hr
      · right
        exact ⟨x, List.mem_cons_self _ _, hx⟩
      · rcases List.mem_cons.mp hr with rfl | hr'
        · left; rfl
        · rcases ih hr' with hcm | ⟨part, hp, hcp⟩
          · left; exact hcm
          · right
            exact ⟨part, List.mem_cons_of_mem _ hp, hcp⟩

/-- A comma-join starts with its first part. -/
theorem joinComma_head (x : List Char) (rest : List (List Char)) :
    ∃ y, joinComma (x :: rest) = x ++ y := by
  cases rest with
  | nil => exact ⟨[], (List.append_nil x).symm⟩
  | cons z t => exact ⟨',' :: joinComma (z :: t), rfl⟩

/-- Splitting a comma-join of comma-free parts recovers the parts. -/
theorem splitOnChar_joinComma (parts : List (List Char)) (hne : parts ≠ [])
    (h : ∀ part ∈ parts, ',' ∉ part) :
    splitOnChar ',' (joinComma parts) = parts := by
  induction parts with
  | nil => exact absurd rfl hne
  | cons x rest ih =>
    cases rest with
    | nil =>
      exact splitOnChar_of_not_mem ',' x (h x (List.mem_singleton_self x))
    | cons y t =>
      rw [show joinComma (x :: y :: t) = x ++ ',' :: joinComma (y :: t) from rfl,
        splitOnChar_append ',' _ _ (h x (List.mem_cons_self _ _)),
        ih (by simp) (fun part hp => h part (List.mem_cons_of_mem _ hp))]

/-- `collect` over rendered constraints parses them all back. -/
theorem collectConstraints_round (ks : List VersionConstraint)
    (h : ∀ k ∈ ks, k.version.Valid) :
    collectConstraints (ks.map constraintChars) = .ok ks := by
  induction ks with
  | nil => rfl
  | cons k rest ih =>
    rw [List.map_cons]
    show (do
      let c ← constraintParse (trimChars (constraintChars k))
      let cs ← collectConstraints (rest.map constraintChars)
      pure (c :: cs)) = .ok (k :: rest)
    rw [trimChars_constraintChars k (h k (List.mem_cons_self _ _)),
      constraintParse_round k (h k (List.mem_cons_self _ _)),
      ih (fun x hx => h x (List.mem_cons_of_mem _ hx))]
    rfl

/-- C4: parsing the display string of any `VersionSpec` yields the spec
again; the empty spec displays as `*`, both the empty string and `*`
parse to the empty spec, and the empty spec matches any version. -/
theorem c4_version_spec_roundtrip :
    (∀ p : VersionSpec, (∀ k ∈ p.constraints, k.version.Valid) →
      VersionSpec.fromStr p.display = .ok p) ∧
    VersionSpec.display ⟨[]⟩ = "*" ∧
    VersionSpec.fromStr "" = .ok ⟨[]⟩ ∧
    VersionSpec.fromStr "*" = .ok ⟨[]⟩ ∧
    (∀ v : Version, (VersionSpec.mk []).matches v = true) := by
  refine ⟨?_, by decide, by decide, by decide, fun v => rfl⟩
  rintro ⟨cs⟩ hval
  show versionSpecFromChars (versionSpecChars ⟨cs⟩) = .ok ⟨cs⟩
  cases cs with
  | nil => decide
  | cons k ks =>
    have hval' : ∀ x ∈ k :: ks, x.version.Valid := hval
    have hvsc : versionSpecChars ⟨k :: ks⟩ = joinComma ((k :: ks).map constraintChars) := by
      simp [versionSpecChars]
    rw [hvsc]
    have hnws : ∀ c ∈ joinComma ((k :: ks).map constraintChars),
        c.isWhitespace = false := by
      intro c hc
      rcases mem_joinComma _ c hc with rfl | ⟨part, hp, hcp⟩
      · decide
      · obtain ⟨x, hx, rfl⟩ := List.mem_map.mp hp
        exact mem_constraintChars_not_ws x (hval' x hx) c hcp
    have hnc : ∀ part ∈ (k :: ks).map constraintChars, ',' ∉ part := by
      intro part hp hcm
      obtain ⟨x, hx, rfl⟩ := List.mem_map.mp hp
      exact mem_constraintChars_ne_comma x (hval' x hx) ',' hcm rfl
    have hcond : ((joinComma ((k :: ks).map constraintChars)).isEmpty ||
        (joinComma ((k :: ks).map constraintChars) == ['*'])) = false := by
      obtain ⟨oc, orest, hoc, hocv⟩ :
          ∃ oc orest, constraintOp k = oc :: orest ∧
            (oc = '=' ∨ oc = '>' ∨ oc = '<' ∨ oc = '!' ∨ oc = '~') := by
        cases k <;> exact ⟨_, _, rfl, by decide⟩
      obtain ⟨y, hy⟩ := joinComma_head (constraintChars k) (ks.map constraintChars)
      rw [List.map_cons, hy, constraintChars, hoc]
      simp only [List.cons_append, List.isEmpty_cons, Bool.false_or]
      rw [beq_eq_false_iff_ne]
      intro heq
      have : oc = '*' := (List.cons.injEq _ _ _ _ ▸ heq).1
      rcases hocv with rfl | rfl | rfl | rfl | rfl <;> cases this
    unfold versionSpecFromChars
    rw [trimChars_eq_self _ hnws]
    simp only [hcond, Bool.false_eq_true, if_false]
    rw [splitOnChar_joinComma _ (by simp) hnc,
      collectConstraints_round _ hval']
    rfl

/-- C4 witness: a concrete two-constraint spec round-trips. -/
theorem c4_witness :
    (∀ k ∈ (VersionSpec.mk [.greaterEqual ⟨1, 2, 0, [], []⟩,
        .less ⟨2, 0, 0, [], []⟩]).constraints, k.version.Valid) ∧
    VersionSpec.fromStr (VersionSpec.display
        ⟨[.greaterEqual ⟨1, 2, 0, [], []⟩, .less ⟨2, 0, 0, [], []⟩]⟩) =
      .ok ⟨[.greaterEqual ⟨1, 2, 0, [], []⟩, .less ⟨2, 0, 0, [], []⟩]⟩ :=
  ⟨by decide, c4_version_spec_roundtrip.1 _ (by decide)⟩

/-! ## Batching lemmas for the execution plan (C1) -/

/-- Membership in one batch: still remaining and no remaining
dependencies. -/
theorem mem_nextBatch (edges : List (Nat × List Nat)) (remaining : List Nat) (p : Nat) :
    p ∈ nextBatch edges remaining ↔
      p ∈ remaining ∧ depsCount edges remaining p = 0 := by
  simp [nextBatch, List.mem_filter]

/-- `deps_count` is zero iff no edge entry has a remaining source
pointing at `p`. -/
theorem depsCount_eq_zero_iff (edges : List (Nat × List Nat)) (remaining : List Nat)
    (p : Nat) :
    depsCount edges remaining p = 0 ↔
      ∀ e ∈ edges, ¬(e.1 ∈ remaining ∧ p ∈ e.2) := by
  unfold depsCount
  rw [List.length_eq_zero, List.filter_eq_nil_iff]
  constructor
  · intro h e he hc
    exact h e he (by
      simp only [Bool.and_eq_true, List.contains, List.elem_iff]
      exact hc)
  · intro h e he hc
    simp only [Bool.and_eq_true, List.contains, List.elem_iff] at hc
    exact h e he hc

/-- With a topologically sorted input, the next batch of a nonempty
remaining set is nonempty: the remaining package of minimal index has no
remaining dependencies. -/
theorem nextBatch_ne_nil (edges : List (Nat × List Nat)) (sorted remaining : List Nat)
    (htopo : ∀ e ∈ edges, ∀ q ∈ e.2, sorted.indexOf e.1 < sorted.indexOf q)
    (hne : remaining ≠ []) : nextBatch edges remaining ≠ [] := by
  obtain ⟨p, hp, hmin⟩ := exists_min_rank (fun x => sorted.indexOf x) remaining hne
  have hdeps : depsCount edges remaining p = 0 := by
    rw [depsCount_eq_zero_iff]
    rintro e he ⟨hfrom, hto⟩
    have h1 := htopo e he p hto
    have h2 := hmin e.1 hfrom
    omega
  intro hnil
  have hmem := (mem_nextBatch edges remaining p).mpr ⟨hp, hdeps⟩
  rw [hnil] at hmem
  cases hmem

/-- Removing a nonempty sub-batch strictly shrinks the remaining set. -/
theorem filter_out_batch_length (remaining batch : List Nat) (hne : batch ≠ [])
    (hbs : ∀ x ∈ batch, x ∈ remaining) :
    (remaining.filter fun p => !batch.contains p).length < remaining.length := by
  rw [List.length_filter_lt_length_iff_exists]
  obtain ⟨x, hx⟩ := List.exists_mem_of_ne_nil batch hne
  refine ⟨x, hbs x hx, ?_⟩
  simp only [List.contains, List.elem_eq_true_of_mem hx, Bool.not_true]
  exact fun h => by cases h

/-- The concatenation of the batches is a permutation of the remaining
set (with enough fuel). -/
theorem buildBatches_join_perm (edges : List (Nat × List Nat)) (sorted : List Nat)
    (htopo : ∀ e ∈ edges, ∀ q ∈ e.2, sorted.indexOf e.1 < sorted.indexOf q) :
    ∀ (fuel : Nat) (remaining : List Nat), remaining.length ≤ fuel →
      (buildBatches edges fuel remaining).flatten.Perm remaining := by
  intro fuel
  induction fuel with
  | zero =>
    intro remaining hlen
    have h0 : remaining = [] := List.length_eq_zero.mp (Nat.le_zero.mp hlen)
    subst h0
    simp [buildBatches]
  | succ n ih =>
    intro remaining hlen
    by_cases hemp : remaining.isEmpty
    · have h0 : remaining = [] := List.isEmpty_iff.mp hemp
      subst h0
      simp [buildBatches]
    · have hne : remaining ≠ [] := fun h0 => hemp (by rw [h0]; rfl)
      have hbne : nextBatch edges remaining ≠ [] :=
        nextBatch_ne_nil edges sorted remaining htopo hne
      rw [buildBatches, if_neg hemp, if_neg (by simpa [List.isEmpty_iff] using hbne),
        List.flatten_cons]
      have hlen' : (remaining.filter fun p => !(nextBatch edges remaining).contains p).length
          ≤ n := by
        have := filter_out_batch_length remaining (nextBatch edges remaining) hbne
          (fun x hx => ((mem_nextBatch edges remaining x).mp hx).1)
        omega
      refine ((ih _ hlen').append_left _).trans ?_
      have hcongr : (remaining.filter fun p => !(nextBatch edges remaining).contains p) =
          remaining.filter fun p => !(depsCount edges remaining p == 0) := by
        apply List.filter_congr
        intro x hx
        congr 1
        cases hdc : (depsCount edges remaining x == 0) with
        | true =>
          exact List.elem_eq_true_of_mem
            ((mem_nextBatch edges remaining x).mpr ⟨hx, by simpa using hdc⟩)
        | false =>
          cases hcb : (nextBatch edges remaining).contains x with
          | false => rfl
          | true =>
            have hxm : x ∈ nextBatch edges remaining := List.elem_iff.mp hcb
            have hz : depsCount edges remaining x = 0 :=
              ((mem_nextBatch edges remaining x).mp hxm).2
            simp [hz] at hdc
      rw [hcongr]
      exact List.filter_append_perm _ remaining

/-- Every remaining dependency of a package lands in a strictly earlier
batch than the package (with enough fuel). -/
theorem buildBatches_dep_earlier (edges : List (Nat × List Nat)) (sorted : List Nat)
    (htopo : ∀ e ∈ edges, ∀ q ∈ e.2, sorted.indexOf e.1 < sorted.indexOf q) :
    ∀ (fuel : Nat) (remaining : List Nat), remaining.length ≤ fuel →
    ∀ e ∈ edges, ∀ q ∈ e.2, e.1 ∈ remaining →
    ∀ j bj, (buildBatches edges fuel remaining)[j]? = some bj → q ∈ bj →
    ∃ (i : Nat) (bi : List Nat), i < j ∧
      (buildBatches edges fuel remaining)[i]? = some bi ∧ e.1 ∈ bi := by
  intro fuel
  induction fuel with
  | zero =>
    intro remaining hlen e _ q _ hfrom
    have h0 : remaining = [] := List.length_eq_zero.mp (Nat.le_zero.mp hlen)
    rw [h0] at hfrom
    cases hfrom
  | succ n ih =>
    intro remaining hlen e he q hq hfrom j bj hj hqb
    have hne : remaining ≠ [] := fun h0 => by
      rw [h0] at hfrom
      cases hfrom
    have hemp : ¬remaining.isEmpty = true := by
      simpa [List.isEmpty_iff] using hne
    have hbne : nextBatch edges remaining ≠ [] :=
      nextBatch_ne_nil edges sorted remaining htopo hne
    have hbemp : ¬(nextBatch edges remaining).isEmpty = true := by
      simpa [List.isEmpty_iff] using hbne
    rw [buildBatches, if_neg hemp, if_neg hbemp] at hj ⊢
    cases j with
    | zero =>
      rw [List.getElem?_cons_zero] at hj
      exfalso
      have hbj : bj = nextBatch edges remaining := (Option.some.inj hj).symm
      subst hbj
      have hq0 := ((mem_nextBatch edges remaining q).mp hqb).2
      rw [depsCount_eq_zero_iff] at hq0
      exact hq0 e he ⟨hfrom, hq⟩
    | succ j' =>
      rw [List.getElem?_cons_succ] at hj
      by_cases hbx : e.1 ∈ nextBatch edges remaining
      · exact ⟨0, nextBatch edges remaining, Nat.succ_pos j', List.getElem?_cons_zero, hbx⟩
      · have hfrom' : e.1 ∈ remaining.filter fun p => !(nextBatch edges remaining).contains p := by
          rw [List.mem_filter]
          refine ⟨hfrom, ?_⟩
          cases hcb : (nextBatch edges remaining).contains e.1 with
          | false => rfl
          | true => exact absurd (List.elem_iff.mp hcb) hbx
        have hlen' : (remaining.filter fun p => !(nextBatch edges remaining).contains p).length
            ≤ n := by
          have := filter_out_batch_length remaining (nextBatch edges remaining) hbne
            (fun x hx => ((mem_nextBatch edges remaining x).mp hx).1)
          omega
        obtain ⟨i, bi, hi, hgi, hbi⟩ := ih _ hlen' e he q hq hfrom' j' bj hj hqb
        refine ⟨i + 1, bi, Nat.succ_lt_succ hi, ?_, hbi⟩
        rw [List.getElem?_cons_succ]
        exact hgi

/-- The first batch is exactly the remaining packages without remaining
dependencies. -/
theorem buildBatches_head (edges : List (Nat × List Nat)) (sorted : List Nat)
    (htopo : ∀ e ∈ edges, ∀ q ∈ e.2, sorted.indexOf e.1 < sorted.indexOf q)
    (hs : sorted ≠ []) :
    (buildBatches edges sorted.length sorted).headD [] = nextBatch edges sorted := by
  cases sorted with
  | nil => exact absurd rfl hs
  | cons a t =>
    have hbne : nextBatch edges (a :: t) ≠ [] :=
      nextBatch_ne_nil edges (a :: t) (a :: t) htopo (by simp)
    rw [List.length_cons, buildBatches, if_neg (by simp),
      if_neg (by simpa [List.isEmpty_iff] using hbne)]
    rfl

/-- C1: for a dependency graph and a topologically sorted, duplicate-free
package list covering its nodes, the concatenation of the batches of
`ExecutionPlan::from_sorted_packages` is a permutation of the packages,
batch 0 is exactly the set of packages with in-degree 0, and every
dependency of every package lands in a strictly earlier batch than the
package itself. -/
theorem c1_execution_plan_batches (sorted : List Nat) (g : DependencyGraph)
    (hnd : sorted.Nodup)
    (hn1 : ∀ p ∈ g.nodes, p ∈ sorted)
    (_hn2 : ∀ p ∈ sorted, p ∈ g.nodes)
    (hends : ∀ e ∈ g.edges, e.1 ∈ g.nodes ∧ ∀ q ∈ e.2, q ∈ g.nodes)
    (htopo : ∀ e ∈ g.edges, ∀ q ∈ e.2, sorted.indexOf e.1 < sorted.indexOf q) :
    (fromSortedPackages sorted g).flatten.Perm sorted ∧
    (∀ p, p ∈ (fromSortedPackages sorted g).headD [] ↔
      p ∈ sorted ∧ inDegree g p = 0) ∧
    (∀ e ∈ g.edges, ∀ q ∈ e.2, ∀ (j : Nat) (bj : List Nat),
      (fromSortedPackages sorted g)[j]? = some bj → q ∈ bj →
      ∃ (i : Nat) (bi : List Nat), i < j ∧
        (fromSortedPackages sorted g)[i]? = some bi ∧ e.1 ∈ bi) := by
  have hplan : fromSortedPackages sorted g = buildBatches g.edges sorted.length sorted := by
    rw [fromSortedPackages, List.dedup_eq_self.mpr hnd]
  refine ⟨?_, ?_, ?_⟩
  · rw [hplan]
    exact buildBatches_join_perm g.edges sorted htopo sorted.length sorted le_rfl
  · intro p
    rw [hplan]
    cases hs : sorted with
    | nil =>
      simp [buildBatches]
    | cons a t =>
      rw [← hs, buildBatches_head g.edges sorted htopo (by rw [hs]; simp),
        mem_nextBatch]
      have hdc : depsCount g.edges sorted p = inDegree g p := by
        unfold depsCount inDegree
        apply congrArg List.length
        apply List.filter_congr
        intro e he
        have hcontains : sorted.contains e.1 = true :=
          List.elem_eq_true_of_mem (hn1 e.1 (hends e he).1)
        rw [hcontains, Bool.true_and]
      rw [hdc]
  · intro e he q hq j bj hj hqb
    rw [hplan] at hj ⊢
    exact buildBatches_dep_earlier g.edges sorted htopo sorted.length sorted le_rfl
      e he q hq (hn1 e.1 (hends e he).1) j bj hj hqb

/-- C1 witness: a three-package chain 1 -> 2 -> 3. -/
theorem c1_witness :
    ([1, 2, 3] : List Nat).Nodup ∧
    ((fromSortedPackages [1, 2, 3] ⟨[1, 2, 3], [(1, [2]), (2, [3])]⟩).flatten.Perm [1, 2, 3] ∧
      (∀ p, p ∈ (fromSortedPackages [1, 2, 3] ⟨[1, 2, 3], [(1, [2]), (2, [3])]⟩).headD [] ↔
        p ∈ ([1, 2, 3] : List Nat) ∧ inDegree ⟨[1, 2, 3], [(1, [2]), (2, [3])]⟩ p = 0) ∧
      (∀ e ∈ [((1 : Nat), [(2 : Nat)]), (2, [3])], ∀ q ∈ e.2, ∀ (j : Nat) (bj : List Nat),
        (fromSortedPackages [1, 2, 3] ⟨[1, 2, 3], [(1, [2]), (2, [3])]⟩)[j]? = some bj →
        q ∈ bj →
        ∃ (i : Nat) (bi : List Nat), i < j ∧
          (fromSortedPackages [1, 2, 3] ⟨[1, 2, 3], [(1, [2]), (2, [3])]⟩)[i]? = some bi ∧
          e.1 ∈ bi)) :=
  ⟨by decide,
    c1_execution_plan_batches [1, 2, 3] ⟨[1, 2, 3], [(1, [2]), (2, [3])]⟩
      (by decide) (by decide) (by decide) (by decide) (by decide)⟩

end Sps2
